import Mathlib

/-!
Verification of the SimpleLisp interpreter (src/learning/lib/simple-lisp.ts).

The TypeScript source is shallowly embedded below.  JS runtime values of the
interpreter (`LispValue = number | string | boolean | null | LispValue[]`,
plus the `undefined` and non-finite numbers that leak in through JS
semantics) become the inductive type `Value`.  JS numbers are modelled as
exact rationals together with explicit NaN and signed-infinity
constructors; floating-point rounding is outside the model.  JS arrays are
reference values, so each constructed list carries an allocation id and
strict equality (`===`) on lists compares ids.  JS objects used as
environments are mutable, so environments live in an explicit heap
(`St.heap`) indexed by references, and closures capture a reference, as the
arrow function in the source captures `env`.  Recursion in the evaluator
and parser is made total with an explicit fuel parameter; running out of
fuel is the distinguished error `Err.outOfFuel`, a model artifact that
corresponds to non-termination / stack exhaustion of the host.
-/

namespace SimpleLisp

/-- Runtime values.  `num`, `nan`, `inf` together model the JS `number`
type; `sym` models JS strings (symbols are lowercased strings); `list`
models arrays, with `id` the allocation identity used by `===`;
`undef` models the JS `undefined` value that arises from out-of-range
array access and missing arguments. -/
inductive Value where
  | num (q : ℚ)
  | nan
  | inf (pos : Bool)
  | sym (s : String)
  | bool (b : Bool)
  | nil
  | undef
  | list (id : ℕ) (elems : List Value)

/-- Errors thrown by the interpreter.  The first six correspond to the
`throw new Error(...)` sites in the source; `hostTypeError` models a
TypeError raised by the JS runtime itself (property access on
`undefined`/`null`, calling a missing method, spreading a non-iterable);
`outOfFuel` is the fuel artifact of the model. -/
inductive Err where
  | unmatchedParen
  | unexpectedParen
  | undefinedSymbol (s : String)
  | callableAsValue (s : String)
  | notAFunction (s : String)
  | cannotEvaluate (s : String)
  | hostTypeError
  | outOfFuel
deriving DecidableEq

/-! ### Decimal rendering of numbers (`value.toString()`) -/

def digitChar (d : ℕ) : Char := Char.ofNat (48 + d)

/-- Little-endian decimal digits of `n`, with fuel (`n` itself suffices). -/
def natDigitsAux : ℕ → ℕ → List ℕ
  | 0, _ => []
  | _, 0 => []
  | f + 1, n => (n % 10) :: natDigitsAux f (n / 10)

def natToChars (n : ℕ) : List Char := ((natDigitsAux n n).map digitChar).reverse

def natStr (n : ℕ) : String := if n = 0 then "0" else String.mk (natToChars n)

/-- Least `k ≤ 63` with `den ∣ 10 ^ k`: the number of decimal digits needed
after the point.  `none` for denominators with prime factors other than
2 and 5 (such rationals are not exactly representable as JS decimal
output; they are outside the modelled printable domain). -/
def decExp (den : ℕ) : Option ℕ := (List.range 64).find? (fun k => 10 ^ k % den == 0)

def fracPad (k m : ℕ) : String :=
  let s := natStr m
  String.mk (List.replicate (k - s.length) '0' ++ s.data)

/-- `(q : number).toString()` for finitely-representable rationals:
minimal decimal expansion, no trailing zeros, leading `0` before the
point, leading `-` if negative. -/
def numToString (q : ℚ) : String :=
  let sign := if q < 0 then "-" else ""
  let n := q.num.natAbs
  match decExp q.den with
  | some 0 => sign ++ natStr n
  | some k =>
      let m := n * 10 ^ k / q.den
      sign ++ natStr (m / 10 ^ k) ++ "." ++ fracPad k (m % 10 ^ k)
  | none => sign ++ natStr n ++ "/" ++ natStr q.den

/-! ### `Number(token)`: the JS string-to-number conversion -/

def isDigitC (c : Char) : Bool := 48 ≤ c.toNat && c.toNat ≤ 57

def digitsVal (ds : List Char) : ℕ := ds.foldl (fun a c => 10 * a + (c.toNat - 48)) 0

def hexDigitVal (c : Char) : Option ℕ :=
  if 48 ≤ c.toNat && c.toNat ≤ 57 then some (c.toNat - 48)
  else if 97 ≤ c.toNat && c.toNat ≤ 102 then some (c.toNat - 87)
  else if 65 ≤ c.toNat && c.toNat ≤ 70 then some (c.toNat - 55)
  else none

def boundedDigit (hi : ℕ) (c : Char) : Option ℕ :=
  if 48 ≤ c.toNat && c.toNat ≤ hi then some (c.toNat - 48) else none

def radixValAux (dv : Char → Option ℕ) (base : ℕ) : List Char → ℕ → Option ℕ
  | [], acc => some acc
  | c :: cs, acc =>
    match dv c with
    | none => none
    | some d => radixValAux dv base cs (base * acc + d)

def radixVal (dv : Char → Option ℕ) (base : ℕ) (cs : List Char) : Option ℕ :=
  if cs.isEmpty then none else radixValAux dv base cs 0

/-- The digits of an exponent part (after the `e`/`E`): optional sign then
at least one digit, consuming everything. -/
def expDigits : List Char → Option ℤ
  | [] => none
  | c :: ds =>
    if c = '+' then (if ds ≠ [] ∧ ds.all isDigitC then some (digitsVal ds) else none)
    else if c = '-' then (if ds ≠ [] ∧ ds.all isDigitC then some (-(digitsVal ds : ℤ)) else none)
    else if (c :: ds).all isDigitC then some (digitsVal (c :: ds)) else none

def applyExpPart (q : ℚ) : List Char → Option ℚ
  | [] => some q
  | c :: rest =>
    if c = 'e' ∨ c = 'E' then (expDigits rest).map (fun e => q * 10 ^ e) else none

/-- An unsigned decimal literal: `digits [. digits] [exp]` or `. digits [exp]`. -/
def parseDecCore (cs : List Char) : Option ℚ :=
  let p := cs.span isDigitC
  match p.2 with
  | [] => if p.1 = [] then none else applyExpPart (digitsVal p.1) []
  | c :: rest2 =>
    if c = '.' then
      let pf := rest2.span isDigitC
      if p.1 = [] ∧ pf.1 = [] then none
      else applyExpPart ((digitsVal p.1 : ℚ) + (digitsVal pf.1 : ℚ) / 10 ^ pf.1.length) pf.2
    else if p.1 = [] then none
    else applyExpPart (digitsVal p.1) (c :: rest2)

def numNegV : Value → Value
  | .num q => .num (-q)
  | .inf s => .inf (!s)
  | _ => .nan

def parseUnsignedNum (cs : List Char) : Option Value :=
  if cs = "Infinity".data then some (.inf true)
  else (parseDecCore cs).map .num

def signedParseNum : List Char → Option Value
  | [] => parseUnsignedNum []
  | c :: cs =>
    if c = '+' then parseUnsignedNum cs
    else if c = '-' then (parseUnsignedNum cs).map numNegV
    else parseUnsignedNum (c :: cs)

/-- `Number(s)` of the JS host, restricted to our value model: `none`
means NaN (so `isNaN(Number(token))` is `(jsNumParse token).isNone`).
The empty string converts to `0`; a sign is only allowed on decimal
literals; `0x`/`0o`/`0b` radix prefixes are accepted unsigned. -/
def jsNumParse (s : String) : Option Value :=
  match s.data with
  | [] => some (.num 0)
  | c0 :: c1 :: rest =>
    if c0 = '0' ∧ (c1 = 'x' ∨ c1 = 'X') then
      (radixVal hexDigitVal 16 rest).map (fun (n : ℕ) => .num (n : ℚ))
    else if c0 = '0' ∧ (c1 = 'b' ∨ c1 = 'B') then
      (radixVal (boundedDigit 49) 2 rest).map (fun (n : ℕ) => .num (n : ℚ))
    else if c0 = '0' ∧ (c1 = 'o' ∨ c1 = 'O') then
      (radixVal (boundedDigit 55) 8 rest).map (fun (n : ℕ) => .num (n : ℚ))
    else signedParseNum (c0 :: c1 :: rest)
  | cs => signedParseNum cs

/-! ### stringify -/

mutual
/-- `stringify` of the source: Lisp-style rendering of a value. -/
def stringify : Value → String
  | .nil => "NIL"
  | .bool true => "T"
  | .bool false => "NIL"
  | .num q => numToString q
  | .nan => "NaN"
  | .inf true => "Infinity"
  | .inf false => "-Infinity"
  | .sym s => s
  | .undef => "undefined"
  | .list _ es => "(" ++ stringifyItems es ++ ")"

def stringifyItems : List Value → String
  | [] => ""
  | [e] => stringify e
  | e :: es => stringify e ++ " " ++ stringifyItems es
end

mutual
/-- Rendering of one array element inside `Array.prototype.toString`
(the `join(",")` used by JS string coercion of arrays): `null` and
`undefined` elements render as the empty string. -/
def jsKeyOne : Value → String
  | .nil => ""
  | .undef => ""
  | .num q => numToString q
  | .nan => "NaN"
  | .inf true => "Infinity"
  | .inf false => "-Infinity"
  | .sym s => s
  | .bool true => "true"
  | .bool false => "false"
  | .list _ es => jsKeyItems es
termination_by structural v => v

def jsKeyItems : List Value → String
  | [] => ""
  | [e] => jsKeyOne e
  | e :: es => jsKeyOne e ++ "," ++ jsKeyItems es
termination_by structural es => es
end

/-- JS `String(v)` coercion, used for object keys and string
concatenation: arrays render as their comma-joined elements, and at top
level `null`/`undefined` render as `"null"`/`"undefined"` (unlike when
they occur as array elements inside the join). -/
def jsKey : Value → String
  | .num q => numToString q
  | .nan => "NaN"
  | .inf true => "Infinity"
  | .inf false => "-Infinity"
  | .sym s => s
  | .bool true => "true"
  | .bool false => "false"
  | .nil => "null"
  | .undef => "undefined"
  | .list _ es => jsKeyItems es

/-! ### JS numeric coercion and arithmetic -/

/-- JS `ToNumber`: result is always of shape `.num`, `.nan` or `.inf`. -/
def toJSNumber (v : Value) : Value :=
  match v with
  | .num q => .num q
  | .nan => .nan
  | .inf s => .inf s
  | .bool true => .num 1
  | .bool false => .num 0
  | .nil => .num 0
  | .undef => .nan
  | .sym s => (jsNumParse s).getD .nan
  | .list _ es => (jsNumParse (jsKeyItems es)).getD .nan

def numAdd : Value → Value → Value
  | .num p, .num q => .num (p + q)
  | .inf s, .inf t => if s = t then .inf s else .nan
  | .inf s, .num _ => .inf s
  | .num _, .inf t => .inf t
  | _, _ => .nan

def numSub (a b : Value) : Value := numAdd a (numNegV b)

def numMul : Value → Value → Value
  | .num p, .num q => .num (p * q)
  | .inf s, .inf t => .inf (s = t)
  | .inf s, .num q => if q = 0 then .nan else if 0 < q then .inf s else .inf (!s)
  | .num q, .inf s => if q = 0 then .nan else if 0 < q then .inf s else .inf (!s)
  | _, _ => .nan

def numDiv : Value → Value → Value
  | .num p, .num q =>
      if q = 0 then (if p = 0 then .nan else if 0 < p then .inf true else .inf false)
      else .num (p / q)
  | .inf s, .num q => if 0 ≤ q then .inf s else .inf (!s)
  | .num _, .inf _ => .num 0
  | _, _ => .nan

def isStringy : Value → Bool
  | .sym _ => true
  | .list _ _ => true
  | _ => false

/-- JS binary `+`: string concatenation when either operand is string-like
after `ToPrimitive` (our strings and arrays), numeric addition otherwise. -/
def jsAdd (a b : Value) : Value :=
  if isStringy a || isStringy b then .sym (jsKey a ++ jsKey b)
  else numAdd (toJSNumber a) (toJSNumber b)

def jsSub (a b : Value) : Value := numSub (toJSNumber a) (toJSNumber b)

def jsMul (a b : Value) : Value := numMul (toJSNumber a) (toJSNumber b)

def jsDiv (a b : Value) : Value := numDiv (toJSNumber a) (toJSNumber b)

/-- JS `a < b`: lexicographic for two strings, numeric otherwise, false
whenever NaN is involved. -/
def jsLtB (a b : Value) : Bool :=
  match a, b with
  | .sym x, .sym y => x < y
  | _, _ =>
    match toJSNumber a, toJSNumber b with
    | .num p, .num q => p < q
    | .num _, .inf t => t
    | .inf s, .num _ => !s
    | .inf s, .inf t => !s && t
    | _, _ => false

def jsLeB (a b : Value) : Bool :=
  match a, b with
  | .sym x, .sym y => x ≤ y
  | _, _ =>
    match toJSNumber a, toJSNumber b with
    | .num p, .num q => p ≤ q
    | .num _, .inf t => t
    | .inf s, .num _ => !s
    | .inf s, .inf t => !s || t
    | _, _ => false

def jsGtB (a b : Value) : Bool := jsLtB b a

def jsGeB (a b : Value) : Bool := jsLeB b a

/-- JS strict equality `===` on our values.  NaN is unequal to
everything including itself; arrays are compared by reference
(allocation id); no cross-type coercion. -/
def jsStrictEq : Value → Value → Bool
  | .nan, _ => false
  | _, .nan => false
  | .num p, .num q => p = q
  | .inf s, .inf t => s = t
  | .sym s, .sym t => s = t
  | .bool a, .bool b => a = b
  | .nil, .nil => true
  | .undef, .undef => true
  | .list i _, .list j _ => i = j
  | _, _ => false

/-- JS truthiness (the `condition ? ... : ...` test and `!x`): `false`,
`null`, `undefined`, `0`, NaN and the empty string are falsy; every
other value, including `[]`, is truthy. -/
def jsTruthy : Value → Bool
  | .bool b => b
  | .nil => false
  | .undef => false
  | .nan => false
  | .num q => q ≠ 0
  | .inf _ => true
  | .sym s => s ≠ ""
  | .list _ _ => true

/-- The truthiness used by the `and`/`or` primitives in the source:
`x !== false && x !== null`. -/
def lispTruthy : Value → Bool
  | .bool false => false
  | .nil => false
  | _ => true

/-! ### Tokenizer

The source pads every `(`, `)` and quote character with spaces, trims,
splits on whitespace runs and drops empty fragments; `wsSplitAux` performs
trim-split-filter in one pass. -/

/-- `token.toLowerCase()` (ASCII, which covers the characters the
interpreter is used with). -/
def toLowerStr (s : String) : String := String.mk (s.data.map Char.toLower)

def quoteChar : Char := Char.ofNat 39

def quoteTok : String := String.mk [quoteChar]

def specialChar (c : Char) : Bool := c = '(' ∨ c = ')' ∨ c = quoteChar

def isWsChar (c : Char) : Bool :=
  c = ' ' ∨ c = '\t' ∨ c = '\n' ∨ c = '\r' ∨ c.toNat = 11 ∨ c.toNat = 12

def expandTokens (cs : List Char) : List Char :=
  (cs.map (fun c => if specialChar c then [' ', c, ' '] else [c])).flatten

def wsSplitAux : List Char → List Char → List String
  | acc, [] => if acc.isEmpty then [] else [String.mk acc.reverse]
  | acc, c :: cs =>
    if isWsChar c then
      if acc.isEmpty then wsSplitAux [] cs
      else String.mk acc.reverse :: wsSplitAux [] cs
    else wsSplitAux (c :: acc) cs

def tokenize (s : String) : List String := wsSplitAux [] (expandTokens s.data)

/-! ### Parser

Recursive descent, faithful to `parseExpression(tokens, index)`.  Instead
of an index we recurse on the remaining suffix of the token list, with a
fuel parameter to make the mutual recursion structural; `evaluate`
supplies fuel that provably suffices for any token list.  `ctr` is the
allocation counter: each array built by the parser (a list node or a
`(quote E)` node) receives a fresh id.  Reading `tokens[index]` past the
end of the array yields `undefined` in JS, and the atom branch then
throws a TypeError on `undefined.toLowerCase()`; the empty-suffix case
therefore produces `Err.hostTypeError`. -/

mutual
def parseExpression : ℕ → List String → ℕ → Except Err ((Value × List String) × ℕ)
  | 0, _, _ => .error .outOfFuel
  | _ + 1, [], _ => .error .hostTypeError
  | pf + 1, t :: rest, ctr =>
    if t = "(" then
      match parseListItems pf rest ctr with
      | .error e => .error e
      | .ok ((es, rest'), ctr') => .ok ((.list ctr' es, rest'), ctr' + 1)
    else if t = ")" then .error .unexpectedParen
    else if t = quoteTok then
      match parseExpression pf rest ctr with
      | .error e => .error e
      | .ok ((e, rest'), ctr') => .ok ((.list ctr' [.sym "quote", e], rest'), ctr' + 1)
    else
      match jsNumParse t with
      | some v => .ok ((v, rest), ctr)
      | none => .ok ((.sym (toLowerStr t), rest), ctr)

def parseListItems : ℕ → List String → ℕ → Except Err ((List Value × List String) × ℕ)
  | 0, _, _ => .error .outOfFuel
  | _ + 1, [], _ => .error .unmatchedParen
  | pf + 1, t :: rest, ctr =>
    if t = ")" then .ok (([], rest), ctr)
    else
      match parseExpression pf (t :: rest) ctr with
      | .error e => .error e
      | .ok ((e, rest'), ctr') =>
        match parseListItems pf rest' ctr' with
        | .error e2 => .error e2
        | .ok ((es, rest''), ctr'') => .ok ((e :: es, rest''), ctr'')
end

/-- `parse`: the top-level loop collecting expressions until the token
list is exhausted. -/
def parse : ℕ → List String → ℕ → Except Err (List Value × ℕ)
  | 0, _, _ => .error .outOfFuel
  | _ + 1, [], ctr => .ok ([], ctr)
  | pf + 1, t :: rest, ctr =>
    match parseExpression pf (t :: rest) ctr with
    | .error e => .error e
    | .ok ((e, rest'), ctr') =>
      match parse pf rest' ctr' with
      | .error e2 => .error e2
      | .ok (es, ctr'') => .ok (e :: es, ctr'')

/-! ### Environments -/

/-- What an environment entry can hold: a data value, a primitive, a
user function (closure), or the JS `undefined` produced by binding a
missing argument.  A lookup that finds `undef` is indistinguishable from
a lookup that finds nothing, exactly as `env[expr] === undefined` in
the source. -/
inductive Prim where
  | add | sub | mul | div
  | eq | lt | gt | le | ge
  | listP | consP | carP | cdrP | lenP | appendP
  | atomP | nullP | numberpP | symbolpP
  | andP | orP | notP | printP
deriving DecidableEq

inductive BoundValue where
  | val (v : Value)
  | undef
  | prim (p : Prim)
  | closure (params : Value) (body : List Value) (envRef : ℕ)

abbrev Env := List (String × BoundValue)

def envGet : Env → String → Option BoundValue
  | [], _ => none
  | (k, v) :: rest, s => if k = s then some v else envGet rest s

def envSet : Env → String → BoundValue → Env
  | [], k, v => [(k, v)]
  | (k', v') :: rest, k, v =>
    if k' = k then (k, v) :: rest else (k', v') :: envSet rest k v

/-- `createGlobalEnvironment` of the source: the primitive table plus the
constants `t` and `nil`. -/
def createGlobalEnvironment : Env :=
  [("+", .prim .add), ("-", .prim .sub), ("*", .prim .mul), ("/", .prim .div),
   ("=", .prim .eq), ("<", .prim .lt), (">", .prim .gt),
   ("<=", .prim .le), (">=", .prim .ge),
   ("list", .prim .listP), ("cons", .prim .consP), ("car", .prim .carP),
   ("cdr", .prim .cdrP), ("length", .prim .lenP), ("append", .prim .appendP),
   ("atom", .prim .atomP), ("null", .prim .nullP),
   ("numberp", .prim .numberpP), ("symbolp", .prim .symbolpP),
   ("and", .prim .andP), ("or", .prim .orP), ("not", .prim .notP),
   ("print", .prim .printP),
   ("t", .val (.bool true)), ("nil", .val .nil)]

/-- Interpreter state: the heap of environment objects (reference `0` is
the instance's global environment), a fresh counter shared by
environment references and array allocation ids, and the output buffer
filled by `print`. -/
structure St where
  heap : ℕ → Env
  fresh : ℕ
  output : List String

def updateHeap (h : ℕ → Env) (r : ℕ) (e : Env) : ℕ → Env :=
  fun r' => if r' = r then e else h r'

def bumpFresh (σ : St) : St := { σ with fresh := σ.fresh + 1 }

/-! ### Primitives -/

def argAt (args : List Value) (i : ℕ) : Value := (args.get? i).getD (Value.undef)

/-- Elements obtained by spreading a value (`[...acc, ...list]` in
`append`): arrays spread to their elements, strings to their characters,
everything else is not iterable and raises a TypeError. -/
def spreadElems : Value → Option (List Value)
  | .list _ es => some es
  | .sym s => some (s.data.map (fun c => .sym (String.mk [c])))
  | _ => none

def appendFold : List Value → List Value → Except Err (List Value)
  | acc, [] => .ok acc
  | acc, v :: vs =>
    match spreadElems v with
    | none => .error .hostTypeError
    | some es => appendFold (acc ++ es) vs

/-- The primitive table of `createGlobalEnvironment`, operation by
operation.  `reduce` without an initial value on an empty array throws a
TypeError, hence the `hostTypeError` for zero-argument `-` and `/`. -/
def applyPrim (p : Prim) (args : List Value) (σ : St) : Except Err (Value × St) :=
  match p with
  | .add => .ok (args.foldl jsAdd (.num 0), σ)
  | .sub =>
    match args with
    | [] => .error .hostTypeError
    | [a] => .ok (numNegV (toJSNumber a), σ)
    | a :: rest => .ok (rest.foldl jsSub a, σ)
  | .mul => .ok (args.foldl jsMul (.num 1), σ)
  | .div =>
    match args with
    | [] => .error .hostTypeError
    | a :: rest => .ok (rest.foldl jsDiv a, σ)
  | .eq => .ok (.bool (jsStrictEq (argAt args 0) (argAt args 1)), σ)
  | .lt => .ok (.bool (jsLtB (argAt args 0) (argAt args 1)), σ)
  | .gt => .ok (.bool (jsGtB (argAt args 0) (argAt args 1)), σ)
  | .le => .ok (.bool (jsLeB (argAt args 0) (argAt args 1)), σ)
  | .ge => .ok (.bool (jsGeB (argAt args 0) (argAt args 1)), σ)
  | .listP => .ok (.list σ.fresh args, bumpFresh σ)
  | .consP =>
    let a := argAt args 0
    let tl := match argAt args 1 with | .list _ es => es | v => [v]
    .ok (.list σ.fresh (a :: tl), bumpFresh σ)
  | .carP =>
    match argAt args 0 with
    | .list _ es => .ok (es.headD .undef, σ)
    | .sym s => .ok ((match s.data with | [] => .undef | c :: _ => .sym (String.mk [c])), σ)
    | .nil => .error .hostTypeError
    | .undef => .error .hostTypeError
    | _ => .ok (.undef, σ)
  | .cdrP =>
    match argAt args 0 with
    | .list _ es => .ok (.list σ.fresh es.tail, bumpFresh σ)
    | .sym s => .ok (.sym (String.mk s.data.tail), σ)
    | _ => .error .hostTypeError
  | .lenP =>
    .ok (.num (match argAt args 0 with | .list _ es => (es.length : ℚ) | _ => 0), σ)
  | .appendP =>
    match appendFold [] args with
    | .error e => .error e
    | .ok es => .ok (.list σ.fresh es, bumpFresh σ)
  | .atomP =>
    .ok (.bool (match argAt args 0 with | .list _ _ => false | _ => true), σ)
  | .nullP =>
    .ok (.bool (match argAt args 0 with
                | .nil => true
                | .list _ es => es.isEmpty
                | _ => false), σ)
  | .numberpP =>
    .ok (.bool (match argAt args 0 with
                | .num _ => true | .nan => true | .inf _ => true
                | _ => false), σ)
  | .symbolpP =>
    .ok (.bool (match argAt args 0 with | .sym _ => true | _ => false), σ)
  | .andP => .ok (.bool (args.all lispTruthy), σ)
  | .orP => .ok (.bool (args.any lispTruthy), σ)
  | .notP => .ok (.bool (!(jsTruthy (argAt args 0))), σ)
  | .printP =>
    let line := String.intercalate " " (args.map stringify)
    .ok (.nil, { σ with output := σ.output ++ [line] })

/-! ### Evaluator -/

def toBound : Option Value → BoundValue
  | none => .undef
  | some .undef => .undef
  | some v => .val v

/-- `params.forEach((param, i) => localEnv[param] = args[i])`: each
parameter key (JS coerces it to a string) is bound positionally; a
missing argument is `undefined`. -/
def bindParamsAux : Env → List Value → List Value → ℕ → Env
  | e, [], _, _ => e
  | e, p :: ps, args, i => bindParamsAux (envSet e (jsKey p) (toBound (args.get? i))) ps args (i + 1)

def bindParams (base : Env) (ps : List Value) (args : List Value) : Env :=
  bindParamsAux base ps args 0

mutual
/-- `evaluateExpression(expr, env)` of the source.  `envr` is the
reference of the environment object; the fuel decreases at every
recursive call. -/
def evaluateExpression : ℕ → Value → ℕ → St → Except Err (Value × St)
  | 0, _, _, _ => .error .outOfFuel
  | fuel + 1, expr, envr, σ =>
    match expr with
    | .num _ => .ok (expr, σ)
    | .nan => .ok (expr, σ)
    | .inf _ => .ok (expr, σ)
    | .nil => .ok (expr, σ)
    | .bool _ => .ok (expr, σ)
    | .sym s =>
      match envGet (σ.heap envr) s with
      | none => .error (.undefinedSymbol s)
      | some .undef => .error (.undefinedSymbol s)
      | some (.prim _) => .error (.callableAsValue s)
      | some (.closure _ _ _) => .error (.callableAsValue s)
      | some (.val v) => .ok (v, σ)
    | .undef => .error (.cannotEvaluate (stringify .undef))
    | .list _ elems =>
      match elems with
      | [] => .ok (.nil, σ)
      | first :: rest =>
        match first with
        | .sym s =>
          if s = "quote" then .ok ((elems.get? 1).getD .undef, σ)
          else if s = "if" then
            match evaluateExpression fuel ((elems.get? 1).getD .undef) envr σ with
            | .error e => .error e
            | .ok (c, σ₁) =>
              if jsTruthy c then evaluateExpression fuel ((elems.get? 2).getD .undef) envr σ₁
              else evaluateExpression fuel ((elems.get? 3).getD .undef) envr σ₁
          else if s = "defun" then
            .ok ((elems.get? 1).getD .undef,
                 { σ with heap := updateHeap σ.heap envr
                            (envSet (σ.heap envr) (jsKey ((elems.get? 1).getD .undef))
                              (.closure ((elems.get? 2).getD .undef) (elems.drop 3) envr)) })
          else
            match envGet (σ.heap envr) s with
            | some (.prim p) =>
              match evalArgs fuel rest envr σ with
              | .error e => .error e
              | .ok (argv, σ₁) => applyPrim p argv σ₁
            | some (.closure params body capRef) =>
              match evalArgs fuel rest envr σ with
              | .error e => .error e
              | .ok (argv, σ₁) => applyClosure fuel params body capRef argv σ₁
            | _ => .error (.notAFunction (stringify first))
        | _ =>
          match evaluateExpression fuel first envr σ with
          | .error e => .error e
          | .ok (_, _) => .error (.notAFunction (stringify first))
termination_by structural fuel _ _ _ => fuel

/-- `expr.slice(1).map(arg => evaluateExpression(arg, env))`, left to
right, stopping at the first error. -/
def evalArgs : ℕ → List Value → ℕ → St → Except Err (List Value × St)
  | 0, _, _, _ => .error .outOfFuel
  | _ + 1, [], _, σ => .ok ([], σ)
  | fuel + 1, e :: es, envr, σ =>
    match evaluateExpression fuel e envr σ with
    | .error err => .error err
    | .ok (v, σ₁) =>
      match evalArgs fuel es envr σ₁ with
      | .error err => .error err
      | .ok (vs, σ₂) => .ok (v :: vs, σ₂)

/-- The `let result = null; for (const form of body) result = ...` loop,
also used for the top-level expression sequence. -/
def evalSeq : ℕ → List Value → ℕ → St → Value → Except Err (Value × St)
  | 0, _, _, _, _ => .error .outOfFuel
  | _ + 1, [], _, σ, acc => .ok (acc, σ)
  | fuel + 1, e :: es, envr, σ, _ =>
    match evaluateExpression fuel e envr σ with
    | .error err => .error err
    | .ok (v, σ₁) => evalSeq fuel es envr σ₁ v

/-- Invoking a user function: `const localEnv = { ...env }` copies the
captured environment object at call time into a fresh object, binds the
parameters, and runs the body with `null` as initial result.  If
`params` is not an array, `params.forEach` raises a TypeError. -/
def applyClosure : ℕ → Value → List Value → ℕ → List Value → St → Except Err (Value × St)
  | 0, _, _, _, _, _ => .error .outOfFuel
  | fuel + 1, params, body, capRef, args, σ =>
    match params with
    | .list _ ps =>
      let localRef := σ.fresh
      let localEnv := bindParams (σ.heap capRef) ps args
      evalSeq fuel body localRef
        { heap := updateHeap σ.heap localRef localEnv, fresh := σ.fresh + 1,
          output := σ.output }
        .nil
    | _ => .error .hostTypeError
end

/-! ### Top-level evaluate -/

/-- The interpreter state at the start of an `evaluate` call: reference
`0` holds the global environment, the allocation counter continues after
the ids consumed by the parser. -/
def initialState (ctr : ℕ) : St :=
  { heap := fun r => if r = 0 then createGlobalEnvironment else [],
    fresh := ctr + 1, output := [] }

/-- Fuel that always suffices for the parser on a given token list. -/
def parseFuel (ts : List String) : ℕ := 2 * ts.length + 4

/-- `evaluate(code)` of the source: tokenize, parse, evaluate every
expression in order against the global environment, render the last
value, and prepend the buffered print lines (joined by newline, followed
by one newline) to the result when any print occurred. -/
def evaluate (fuel : ℕ) (code : String) : Except Err (String × String) :=
  match parse (parseFuel (tokenize code)) (tokenize code) 0 with
  | .error e => .error e
  | .ok (exprs, ctr) =>
    match evalSeq fuel exprs 0 (initialState ctr) .nil with
    | .error e => .error e
    | .ok (last, σ) =>
      .ok (stringify last,
           if σ.output.length > 0
           then String.intercalate "\n" σ.output ++ "\n" ++ stringify last
           else stringify last)

/-! ### Spec-side notions

`specStructEq` is the structural (value) equality described by the
specification: equal numbers, equal symbols, equal booleans, both nil,
or lists of pairwise structurally equal elements — allocation identity
is ignored.  It is written from the spec, to be compared against the
source's strict equality. -/

mutual
def specStructEq : Value → Value → Bool
  | .num p, .num q => p = q
  | .nan, .nan => true
  | .inf s, .inf t => s = t
  | .sym s, .sym t => s = t
  | .bool a, .bool b => a = b
  | .nil, .nil => true
  | .undef, .undef => true
  | .list _ xs, .list _ ys => specStructEqList xs ys
  | _, _ => false

def specStructEqList : List Value → List Value → Bool
  | [], [] => true
  | x :: xs, y :: ys => specStructEq x y && specStructEqList xs ys
  | _, _ => false
end

/-- A tiny interpreter state used to instantiate general theorems: an
empty heap and one allocated reference. -/
def tinyState : St := { heap := fun _ => [], fresh := 1, output := [] }

/-! ## Claim C2: the `if` special form -/

/-- Claim C2, as stated by the spec, is refuted here: the condition `0`
is neither boolean false nor nil, so the claim demands that
`(if 0 1 2)` return `1`; the interpreter uses JS truthiness
(`condition ? ... : ...`), `0` is falsy, and the result is `2`. -/
theorem claim2_counterexample : evaluate 9 "(if 0 1 2)" = .ok ("2", "2") := by rfl

/-- Claim C2 (amended): evaluating `(if C T F)` evaluates `C`; if the
result is truthy in the JS sense (any value other than boolean false,
nil, the missing-value marker, NaN, the number `0` and the empty
symbol — in particular any list, even empty, is truthy) the whole
expression evaluates `T`, otherwise `F`; only the taken branch is
evaluated, so the untaken branch expression is irrelevant to the
result. -/
theorem claim2_if_dispatch (fuel i : ℕ) (C T F : Value) (envr : ℕ) (σ σ₁ : St) (v : Value)
    (h : evaluateExpression fuel C envr σ = .ok (v, σ₁)) :
    (evaluateExpression (fuel + 1) (.list i [.sym "if", C, T, F]) envr σ =
      if jsTruthy v then evaluateExpression fuel T envr σ₁
      else evaluateExpression fuel F envr σ₁)
    ∧ (jsTruthy v = true → ∀ F', evaluateExpression (fuel + 1) (.list i [.sym "if", C, T, F]) envr σ
        = evaluateExpression (fuel + 1) (.list i [.sym "if", C, T, F']) envr σ)
    ∧ (jsTruthy v = false → ∀ T', evaluateExpression (fuel + 1) (.list i [.sym "if", C, T, F]) envr σ
        = evaluateExpression (fuel + 1) (.list i [.sym "if", C, T', F]) envr σ) := by
  have base : ∀ T' F' : Value,
      evaluateExpression (fuel + 1) (.list i [.sym "if", C, T', F']) envr σ =
        match evaluateExpression fuel C envr σ with
        | .error e => .error e
        | .ok (c, σ') =>
          if jsTruthy c then evaluateExpression fuel T' envr σ'
          else evaluateExpression fuel F' envr σ' := by
    intro T' F'
    rfl
  refine ⟨?_, ?_, ?_⟩
  · rw [base T F, h]
  · intro ht F'
    rw [base T F, base T F', h]
    simp [ht]
  · intro hf T'
    rw [base T F, base T' F, h]
    simp [hf]

/-- Witness for `claim2_if_dispatch` at a concrete input. -/
theorem claim2_if_dispatch_witness :
    (evaluateExpression 1 (.num 1) 0 tinyState = .ok (.num 1, tinyState))
    ∧ (evaluateExpression 2 (.list 0 [.sym "if", .num 1, .num 2, .num 3]) 0 tinyState =
        if jsTruthy (.num 1) then evaluateExpression 1 (.num 2) 0 tinyState
        else evaluateExpression 1 (.num 3) 0 tinyState) :=
  ⟨rfl, (claim2_if_dispatch 1 0 (.num 1) (.num 2) (.num 3) 0 tinyState tinyState (.num 1) rfl).1⟩

/-! ## Claim C3: the `=` primitive -/

/-- Claim C3, as stated by the spec, is refuted here: `=` is the host's
strict equality, which compares lists by reference.  The two operands
of `(= (list 1) (list 1))` are distinct freshly allocated lists with
structurally equal elements; the claim demands result `T`, the
interpreter returns false, printed `NIL`. -/
theorem claim3_counterexample :
    evaluate 20 "(= (list 1) (list 1))" = .ok ("NIL", "NIL")
    ∧ specStructEq (.list 0 [.num 1]) (.list 1 [.num 1]) = true
    ∧ jsStrictEq (.list 0 [.num 1]) (.list 1 [.num 1]) = false :=
  ⟨by rfl, by rfl, by rfl⟩

/-- Claim C3 (amended): the primitive `=` applied to two argument Values
returns the host strict-equality verdict: true exactly for equal
numbers, equal symbols, equal booleans, both nil, or the same list
object (same allocation); two distinct List values compare unequal even
when their elements are pairwise structurally equal. -/
theorem claim3_eq_semantics :
    (∀ a b σ, applyPrim .eq [a, b] σ = .ok (.bool (jsStrictEq a b), σ))
    ∧ (∀ i xs j ys, jsStrictEq (.list i xs) (.list j ys) = decide (i = j))
    ∧ (∀ p q, jsStrictEq (.num p) (.num q) = decide (p = q))
    ∧ (∀ s t, jsStrictEq (.sym s) (.sym t) = decide (s = t))
    ∧ (∀ a b, jsStrictEq (.bool a) (.bool b) = decide (a = b))
    ∧ jsStrictEq .nil .nil = true :=
  ⟨fun _ _ _ => rfl, fun _ _ _ _ => rfl, fun _ _ => rfl, fun _ _ => rfl, fun _ _ => rfl, rfl⟩

/-! ## Claim C10: empty programs -/

lemma isWs_not_special (c : Char) (h : isWsChar c = true) : specialChar c = false := by
  simp only [isWsChar, decide_eq_true_eq] at h
  simp only [specialChar, decide_eq_false_iff_not]
  intro hc
  rcases hc with hc | hc | hc <;> subst hc <;>
    rcases h with h | h | h | h | h | h <;> exact absurd h (by decide)

lemma expand_nonspecial (cs : List Char) (h : ∀ c ∈ cs, specialChar c = false) :
    expandTokens cs = cs := by
  induction cs with
  | nil => rfl
  | cons c cs ih =>
    have hc := h c (List.mem_cons_self _ _)
    have ih' := ih (fun x hx => h x (List.mem_cons_of_mem _ hx))
    simp only [expandTokens, List.map_cons, List.flatten_cons] at ih' ⊢
    simp [hc, ih']

lemma wsSplitAux_all_ws (cs : List Char) (h : ∀ c ∈ cs, isWsChar c = true) :
    wsSplitAux [] cs = [] := by
  induction cs with
  | nil => rfl
  | cons c cs ih =>
    simp only [wsSplitAux, h c (List.mem_cons_self _ _), if_pos, List.isEmpty_nil]
    exact ih (fun x hx => h x (List.mem_cons_of_mem _ hx))

lemma tokenize_ws_nil (s : String) (h : s.data.all isWsChar = true) : tokenize s = [] := by
  have h' : ∀ c ∈ s.data, isWsChar c = true := by simpa [List.all_eq_true] using h
  unfold tokenize
  rw [expand_nonspecial s.data (fun c hc => isWs_not_special c (h' c hc))]
  exact wsSplitAux_all_ws s.data h'

/-- Claim C10: evaluating a source text that contains no expression
(empty or whitespace-only) succeeds: the last-result value defaults to
nil, no print occurs, and both the result and the output are `"NIL"`. -/
theorem claim10_empty_program (s : String) (fuel : ℕ) (h : s.data.all isWsChar = true) :
    evaluate (fuel + 1) s = .ok ("NIL", "NIL") := by
  unfold evaluate
  rw [tokenize_ws_nil s h]
  rfl

/-- Witness for `claim10_empty_program`: the empty source and a
whitespace-only source. -/
theorem claim10_empty_program_witness :
    ("".data.all isWsChar = true) ∧ evaluate 1 "" = .ok ("NIL", "NIL") :=
  ⟨by decide, claim10_empty_program "" 0 (by decide)⟩

/-! ## Claim C4: print output assembly -/

/-- Claim C4, as stated by the spec, is refuted here: `stringify` prints
a symbol's text as stored, which is lowercase, so
`evaluate("(print 'hello) 42")` produces output `"hello\n42"`, not the
claimed `"HELLO\n42"`.  (The result `"42"` part of the claim is
correct.) -/
theorem claim4_counterexample :
    evaluate 20 ("(print " ++ quoteTok ++ "hello) 42") = .ok ("42", "hello\n42")
    ∧ ("hello\n42" : String) ≠ "HELLO\n42" :=
  ⟨by rfl, by decide⟩

/-- Claim C4 (amended): `evaluate("(print 'hello) 42")` returns output
`"hello\n42"` (symbols print as their stored lowercase text) and result
`"42"`; in general the returned output equals the buffered print lines
joined by newline, then a newline, then the result text when at least
one print occurred, and the result text alone otherwise. -/
theorem claim4_output_assembly (fuel : ℕ) (code : String) (exprs : List Value)
    (ctr : ℕ) (last : Value) (σ : St)
    (hp : parse (parseFuel (tokenize code)) (tokenize code) 0 = .ok (exprs, ctr))
    (he : evalSeq fuel exprs 0 (initialState ctr) .nil = .ok (last, σ)) :
    evaluate fuel code = .ok (stringify last,
      if σ.output.length > 0
      then String.intercalate "\n" σ.output ++ "\n" ++ stringify last
      else stringify last) := by
  unfold evaluate
  rw [hp]
  dsimp only
  rw [he]

/-- Witness for `claim4_output_assembly`: a program with two prints,
whose output is the two buffered lines, a newline, and the result. -/
theorem claim4_output_assembly_witness :
    evaluate 20 "(print 1 2) (print 3) 7" = .ok ("7", "1 2\n3\n7") := by
  have h := claim4_output_assembly 20 "(print 1 2) (print 3) 7"
    [.list 0 [.sym "print", .num 1, .num 2], .list 1 [.sym "print", .num 3], .num 7] 2
    (.num 7)
    { heap := fun r => if r = 0 then createGlobalEnvironment else [],
      fresh := 3, output := ["1 2", "3"] } rfl rfl
  simpa using h

/-! ## Claim C9: missing arguments bind to the undefined marker -/

lemma envGet_envSet (e : Env) (k : String) (v : BoundValue) (s : String) :
    envGet (envSet e k v) s = if k = s then some v else envGet e s := by
  induction e with
  | nil => rfl
  | cons kv rest ih =>
    obtain ⟨k', v'⟩ := kv
    by_cases hk : k' = k
    · subst hk
      simp only [envSet, if_pos rfl, envGet]
      by_cases hs : k' = s <;> simp [hs]
    · simp only [envSet, if_neg hk, envGet, ih]
      by_cases hs : k' = s
      · subst hs
        simp [if_neg (Ne.symm hk)]
      · simp [hs]

lemma bindParamsAux_not_mem (e : Env) (ps args : List Value) (i : ℕ) (p : String)
    (h : ∀ q ∈ ps, jsKey q ≠ p) :
    envGet (bindParamsAux e ps args i) p = envGet e p := by
  induction ps generalizing e i with
  | nil => rfl
  | cons q ps ih =>
    simp only [bindParamsAux]
    rw [ih _ (i + 1) (fun x hx => h x (List.mem_cons_of_mem _ hx)),
        envGet_envSet, if_neg (h q (List.mem_cons_self _ _))]

lemma bindParamsAux_get (ps : List Value) (e : Env) (args : List Value) (i j : ℕ)
    (pv : Value) (p : String)
    (hj : ps.get? j = some pv) (hk : jsKey pv = p)
    (hlast : ∀ k q, j < k → ps.get? k = some q → jsKey q ≠ p) :
    envGet (bindParamsAux e ps args i) p = some (toBound (args.get? (i + j))) := by
  induction ps generalizing e i j with
  | nil => simp at hj
  | cons q ps ih =>
    cases j with
    | zero =>
      simp only [List.get?] at hj
      injection hj with hj
      subst hj
      have hnot : ∀ x ∈ ps, jsKey x ≠ p := by
        intro x hx
        obtain ⟨n, hn⟩ := List.mem_iff_get?.mp hx
        exact hlast (n + 1) x (Nat.succ_pos n) (by simpa using hn)
      simp only [bindParamsAux]
      rw [bindParamsAux_not_mem _ _ _ _ _ hnot, envGet_envSet, if_pos hk]
      simp
    | succ j =>
      simp only [List.get?] at hj
      simp only [bindParamsAux]
      rw [ih _ (i + 1) j hj (fun k q hk' hq => hlast (k + 1) q (by omega) (by simpa using hq)),
          show i + 1 + j = i + (j + 1) from by omega]

/-- Claim C9: when a user function is called with fewer arguments than
parameters, each unfilled parameter is bound to the undefined marker
(`args[i]` is `undefined` past the end of the argument list), and a
reference to such a parameter in the body raises the same
`UnboundSymbol` error as referencing a symbol with no binding at all:
at lookup, a binding to the marker is indistinguishable from absence.
Stated for the last parameter with a given name, at a position `j` the
arguments do not reach. -/
theorem claim9_missing_args (fuel id capRef : ℕ) (ps args : List Value)
    (σ : St) (j : ℕ) (pv : Value) (p : String)
    (hj : ps.get? j = some pv) (hk : jsKey pv = p) (hlen : args.length ≤ j)
    (hlast : ∀ k q, j < k → ps.get? k = some q → jsKey q ≠ p) :
    (envGet (bindParams (σ.heap capRef) ps args) p = some .undef)
    ∧ (applyClosure (fuel + 3) (.list id ps) [.sym p] capRef args σ
        = .error (.undefinedSymbol p))
    ∧ (∀ (s : String) (r : ℕ) (σ' : St), envGet (σ'.heap r) s = none →
        evaluateExpression (fuel + 1) (.sym s) r σ' = .error (.undefinedSymbol s)) := by
  have hargs : args.get? j = none := List.get?_eq_none.mpr hlen
  have hbind : envGet (bindParams (σ.heap capRef) ps args) p = some .undef := by
    rw [bindParams, bindParamsAux_get ps _ args 0 j pv p hj hk hlast, Nat.zero_add, hargs]
    rfl
  refine ⟨hbind, ?_, ?_⟩
  · show applyClosure (fuel + 2 + 1) (.list id ps) [.sym p] capRef args σ
      = .error (.undefinedSymbol p)
    simp only [applyClosure, evalSeq, evaluateExpression, updateHeap, eq_self_iff_true,
      if_true]
    rw [hbind]
  · intro s r σ' h
    simp only [evaluateExpression, h]

/-- Witness for `claim9_missing_args`: a one-parameter function called
with no arguments. -/
theorem claim9_missing_args_witness :
    applyClosure 3 (.list 0 [.sym "x"]) [.sym "x"] 0 [] tinyState
      = .error (.undefinedSymbol "x") :=
  (claim9_missing_args 0 0 0 [.sym "x"] [] tinyState 0 (.sym "x") "x" rfl rfl
    (by decide)
    (fun k q hk hq => by
      cases k with
      | zero => omega
      | succ n => simp at hq)).2.1

/-! ## Claims C7 and C8: parser error behaviour

Shared machinery: a successful `parseExpression`/`parseListItems` call
consumes at least one token, and two induction lemmas characterising
what the parser does on token lists with no `")"` that do or do not end
in a dangling quote token. -/

lemma getLast?_cons_ne {α : Type} (a : α) (l : List α) (h : l ≠ []) :
    (a :: l).getLast? = l.getLast? := by
  cases l with
  | nil => exact absurd rfl h
  | cons b l => simp [List.getLast?_cons_cons]

lemma parse_consume (pf : ℕ) :
    (∀ ts ctr v rest' ctr', parseExpression pf ts ctr = .ok ((v, rest'), ctr') →
      rest'.length < ts.length)
    ∧ (∀ ts ctr es rest' ctr', parseListItems pf ts ctr = .ok ((es, rest'), ctr') →
      rest'.length < ts.length) := by
  induction pf with
  | zero =>
    constructor
    · intro ts ctr v rest' ctr' h
      exact Except.noConfusion h
    · intro ts ctr es rest' ctr' h
      exact Except.noConfusion h
  | succ pf ih =>
    obtain ⟨ihP, ihL⟩ := ih
    constructor
    · intro ts ctr v rest' ctr' h
      cases ts with
      | nil => exact Except.noConfusion h
      | cons t rest =>
        simp only [parseExpression] at h
        by_cases h1 : t = "("
        · rw [if_pos h1] at h
          cases hL : parseListItems pf rest ctr with
          | error e => rw [hL] at h; exact Except.noConfusion h
          | ok r =>
            obtain ⟨⟨es, rest₁⟩, ctr₁⟩ := r
            rw [hL] at h
            simp only [Except.ok.injEq, Prod.mk.injEq] at h
            obtain ⟨⟨_, hr⟩, _⟩ := h
            have := ihL rest ctr es rest₁ ctr₁ hL
            rw [← hr]
            simp only [List.length_cons]
            omega
        · rw [if_neg h1] at h
          by_cases h2 : t = ")"
          · rw [if_pos h2] at h
            exact Except.noConfusion h
          · rw [if_neg h2] at h
            by_cases h3 : t = quoteTok
            · rw [if_pos h3] at h
              cases hP : parseExpression pf rest ctr with
              | error e => rw [hP] at h; exact Except.noConfusion h
              | ok r =>
                obtain ⟨⟨e, rest₁⟩, ctr₁⟩ := r
                rw [hP] at h
                simp only [Except.ok.injEq, Prod.mk.injEq] at h
                obtain ⟨⟨_, hr⟩, _⟩ := h
                have := ihP rest ctr e rest₁ ctr₁ hP
                rw [← hr]
                simp only [List.length_cons]
                omega
            · rw [if_neg h3] at h
              cases hjs : jsNumParse t with
              | some v' =>
                rw [hjs] at h
                simp only [Except.ok.injEq, Prod.mk.injEq] at h
                obtain ⟨⟨_, hr⟩, _⟩ := h
                rw [← hr]
                simp
              | none =>
                rw [hjs] at h
                simp only [Except.ok.injEq, Prod.mk.injEq] at h
                obtain ⟨⟨_, hr⟩, _⟩ := h
                rw [← hr]
                simp
    · intro ts ctr es rest' ctr' h
      cases ts with
      | nil => exact Except.noConfusion h
      | cons t rest =>
        simp only [parseListItems] at h
        by_cases h1 : t = ")"
        · rw [if_pos h1] at h
          simp only [Except.ok.injEq, Prod.mk.injEq] at h
          obtain ⟨⟨_, hr⟩, _⟩ := h
          rw [← hr]
          simp
        · rw [if_neg h1] at h
          cases hP : parseExpression pf (t :: rest) ctr with
          | error e => rw [hP] at h; exact Except.noConfusion h
          | ok r =>
            obtain ⟨⟨e, rest₁⟩, ctr₁⟩ := r
            rw [hP] at h
            dsimp only at h
            cases hL : parseListItems pf rest₁ ctr₁ with
            | error e2 => rw [hL] at h; exact Except.noConfusion h
            | ok r2 =>
              obtain ⟨⟨es₂, rest₂⟩, ctr₂⟩ := r2
              rw [hL] at h
              simp only [Except.ok.injEq, Prod.mk.injEq] at h
              obtain ⟨⟨_, hr⟩, _⟩ := h
              have hc1 := ihP (t :: rest) ctr e rest₁ ctr₁ hP
              have hc2 := ihL rest₁ ctr₁ es₂ rest₂ ctr₂ hL
              rw [← hr]
              omega

/-- On a token list without `")"` whose last token is the quote marker,
`parseExpression` either raises the host TypeError (reading past the end
of the token array) or succeeds leaving a nonempty suffix with the same
properties, and `parseListItems` always raises the host TypeError. -/
lemma quote_tail_err (pf : ℕ) :
    (∀ ts ctr, 2 * ts.length + 2 ≤ pf → ")" ∉ ts → ts.getLast? = some quoteTok →
      (parseExpression pf ts ctr = .error .hostTypeError ∨
        ∃ v rest' ctr', parseExpression pf ts ctr = .ok ((v, rest'), ctr') ∧
          rest' ≠ [] ∧ rest'.getLast? = some quoteTok ∧ ")" ∉ rest'))
    ∧ (∀ ts ctr, 2 * ts.length + 3 ≤ pf → ")" ∉ ts → ts.getLast? = some quoteTok →
      parseListItems pf ts ctr = .error .hostTypeError) := by
  induction pf with
  | zero =>
    constructor
    · intro ts ctr hf
      omega
    · intro ts ctr hf
      omega
  | succ pf ih =>
    obtain ⟨ihP, ihL⟩ := ih
    constructor
    · intro ts ctr hf hnc hlast
      cases ts with
      | nil => simp at hlast
      | cons t rest =>
        simp only [List.length_cons] at hf
        simp only [parseExpression]
        by_cases h1 : t = "("
        · rw [if_pos h1]
          have hrne : rest ≠ [] := by
            intro hre
            subst hre h1
            simp only [List.getLast?_singleton, Option.some.injEq] at hlast
            exact absurd hlast (by decide)
          have hlast' : rest.getLast? = some quoteTok := by
            rw [← getLast?_cons_ne t rest hrne]
            exact hlast
          have hL := ihL rest ctr (by omega)
            (fun hm => hnc (List.mem_cons_of_mem _ hm)) hlast'
          rw [hL]
          exact Or.inl rfl
        · rw [if_neg h1]
          have h2 : t ≠ ")" := fun he => hnc (he ▸ List.mem_cons_self _ _)
          rw [if_neg h2]
          by_cases h3 : t = quoteTok
          · rw [if_pos h3]
            cases rest with
            | nil =>
              cases pf with
              | zero => omega
              | succ m => exact Or.inl rfl
            | cons r rest' =>
              have hrne : (r :: rest') ≠ [] := by simp
              have hlast' : (r :: rest').getLast? = some quoteTok := by
                rw [← getLast?_cons_ne t _ hrne]
                exact hlast
              have hP := ihP (r :: rest') ctr (by simp only [List.length_cons] at *; omega)
                (fun hm => hnc (List.mem_cons_of_mem _ hm)) hlast'
              rcases hP with herr | ⟨v, rest₁, ctr₁, heq, hne₁, hlast₁, hnc₁⟩
              · rw [herr]
                exact Or.inl rfl
              · rw [heq]
                exact Or.inr ⟨.list ctr₁ [.sym "quote", v], rest₁, ctr₁ + 1, rfl,
                  hne₁, hlast₁, hnc₁⟩
          · rw [if_neg h3]
            have hrne : rest ≠ [] := by
              intro hre
              subst hre
              simp only [List.getLast?_singleton, Option.some.injEq] at hlast
              exact h3 hlast
            have hlast' : rest.getLast? = some quoteTok := by
              rw [← getLast?_cons_ne t rest hrne]
              exact hlast
            have hnc' : ")" ∉ rest := fun hm => hnc (List.mem_cons_of_mem _ hm)
            cases hjs : jsNumParse t with
            | some v => exact Or.inr ⟨v, rest, ctr, rfl, hrne, hlast', hnc'⟩
            | none => exact Or.inr ⟨.sym (toLowerStr t), rest, ctr, rfl, hrne, hlast', hnc'⟩
    · intro ts ctr hf hnc hlast
      cases ts with
      | nil => simp at hlast
      | cons t rest =>
        simp only [List.length_cons] at hf
        simp only [parseListItems]
        have h1 : t ≠ ")" := fun he => hnc (he ▸ List.mem_cons_self _ _)
        rw [if_neg h1]
        have hP := ihP (t :: rest) ctr (by simp only [List.length_cons]; omega) hnc hlast
        rcases hP with herr | ⟨v, rest₁, ctr₁, heq, hne₁, hlast₁, hnc₁⟩
        · rw [herr]
        · rw [heq]
          dsimp only
          have hcons := (parse_consume pf).1 (t :: rest) ctr v rest₁ ctr₁ heq
          simp only [List.length_cons] at hcons
          have hL := ihL rest₁ ctr₁ (by omega) hnc₁ hlast₁
          rw [hL]

/-- On a token list without `")"` whose last token is the quote marker,
the top-level parse loop raises the host TypeError. -/
lemma parse_quote_tail :
    ∀ pf ts ctr, 2 * ts.length + 3 ≤ pf → ")" ∉ ts → ts.getLast? = some quoteTok →
      parse pf ts ctr = .error .hostTypeError := by
  intro pf
  induction pf with
  | zero =>
    intro ts ctr hf
    omega
  | succ pf ih =>
    intro ts ctr hf hnc hlast
    cases ts with
    | nil => simp at hlast
    | cons t rest =>
      simp only [List.length_cons] at hf
      simp only [parse]
      have hP := (quote_tail_err pf).1 (t :: rest) ctr (by simp only [List.length_cons]; omega)
        hnc hlast
      rcases hP with herr | ⟨v, rest₁, ctr₁, heq, hne₁, hlast₁, hnc₁⟩
      · rw [herr]
      · rw [heq]
        dsimp only
        have hcons := (parse_consume pf).1 (t :: rest) ctr v rest₁ ctr₁ heq
        simp only [List.length_cons] at hcons
        have := ih rest₁ ctr₁ (by omega) hnc₁ hlast₁
        rw [this]

/-- Claim C7, as stated by the spec, is refuted here: the interpreter
throws no typed DanglingQuote error anywhere (the `Err` type enumerates
every `throw` site of the source, and none is a dangling-quote error).
On input consisting of a bare quote marker the parser reads
`tokens[index + 1]`, gets `undefined`, and crashes with the host
TypeError on `undefined.toLowerCase()`. -/
theorem claim7_counterexample : evaluate 5 quoteTok = .error .hostTypeError := by rfl

/-- Claim C7 (amended): for every input whose token sequence ends with a
quote marker followed by no further token (and contains no `")"`, which
could fail first with a different error), parsing fails — but with the
untyped host TypeError caused by reading past the end of the token
array, not with a dedicated DanglingQuote error, which the interpreter
does not define. -/
theorem claim7_dangling_quote (fuel : ℕ) (code : String)
    (hnc : ")" ∉ tokenize code) (hlast : (tokenize code).getLast? = some quoteTok) :
    evaluate fuel code = .error .hostTypeError := by
  unfold evaluate
  rw [parse_quote_tail (parseFuel (tokenize code)) (tokenize code) 0
    (by simp only [parseFuel]; omega) hnc hlast]

/-- Witness for `claim7_dangling_quote`: the input `1 '`. -/
theorem claim7_dangling_quote_witness :
    evaluate 5 ("1 " ++ quoteTok) = .error .hostTypeError :=
  claim7_dangling_quote 5 ("1 " ++ quoteTok) (by decide) (by decide)

/-- On a nonempty token list without `")"` that does not end in a quote
marker, `parseExpression` either raises UnmatchedParenthesis or
succeeds leaving a suffix with the same properties (and keeping any
unconsumed `"("`), and `parseListItems`, which can never find its
closing parenthesis, always raises UnmatchedParenthesis. -/
lemma open_paren_err (pf : ℕ) :
    (∀ ts ctr, 2 * ts.length + 2 ≤ pf → ts ≠ [] → ")" ∉ ts →
      ts.getLast? ≠ some quoteTok →
      (parseExpression pf ts ctr = .error .unmatchedParen ∨
        ∃ v rest' ctr', parseExpression pf ts ctr = .ok ((v, rest'), ctr') ∧
          ")" ∉ rest' ∧ rest'.getLast? ≠ some quoteTok ∧ ("(" ∈ ts → "(" ∈ rest')))
    ∧ (∀ ts ctr, 2 * ts.length + 3 ≤ pf → ")" ∉ ts → ts.getLast? ≠ some quoteTok →
      parseListItems pf ts ctr = .error .unmatchedParen) := by
  induction pf with
  | zero =>
    constructor
    · intro ts ctr hf
      omega
    · intro ts ctr hf
      omega
  | succ pf ih =>
    obtain ⟨ihP, ihL⟩ := ih
    constructor
    · intro ts ctr hf hne hnc hlast
      cases ts with
      | nil => exact absurd rfl hne
      | cons t rest =>
        simp only [List.length_cons] at hf
        simp only [parseExpression]
        have htail : rest.getLast? ≠ some quoteTok := by
          cases rest with
          | nil => simp
          | cons r rs =>
            rw [← getLast?_cons_ne t _ (by simp)]
            exact hlast
        have hncr : ")" ∉ rest := fun hm => hnc (List.mem_cons_of_mem _ hm)
        by_cases h1 : t = "("
        · rw [if_pos h1]
          have hL := ihL rest ctr (by omega) hncr htail
          rw [hL]
          exact Or.inl rfl
        · rw [if_neg h1]
          have h2 : t ≠ ")" := fun he => hnc (he ▸ List.mem_cons_self _ _)
          rw [if_neg h2]
          by_cases h3 : t = quoteTok
          · rw [if_pos h3]
            cases rest with
            | nil =>
              subst h3
              simp only [List.getLast?_singleton] at hlast
              exact absurd rfl hlast
            | cons r rest' =>
              have hP := ihP (r :: rest') ctr (by simp only [List.length_cons] at *; omega)
                (by simp) hncr htail
              rcases hP with herr | ⟨v, rest₁, ctr₁, heq, hnc₁, hlast₁, himp₁⟩
              · rw [herr]
                exact Or.inl rfl
              · rw [heq]
                refine Or.inr ⟨.list ctr₁ [.sym "quote", v], rest₁, ctr₁ + 1, rfl,
                  hnc₁, hlast₁, ?_⟩
                intro hmem
                rcases List.mem_cons.mp hmem with hmem | hmem
                · exact absurd (h3 ▸ hmem.symm) (by decide)
                · exact himp₁ hmem
          · rw [if_neg h3]
            have himp : "(" ∈ t :: rest → "(" ∈ rest := by
              intro hmem
              rcases List.mem_cons.mp hmem with hmem | hmem
              · exact absurd hmem.symm h1
              · exact hmem
            cases hjs : jsNumParse t with
            | some v => exact Or.inr ⟨v, rest, ctr, rfl, hncr, htail, himp⟩
            | none => exact Or.inr ⟨.sym (toLowerStr t), rest, ctr, rfl, hncr, htail, himp⟩
    · intro ts ctr hf hnc hlast
      cases ts with
      | nil => rfl
      | cons t rest =>
        simp only [List.length_cons] at hf
        simp only [parseListItems]
        have h1 : t ≠ ")" := fun he => hnc (he ▸ List.mem_cons_self _ _)
        rw [if_neg h1]
        have hP := ihP (t :: rest) ctr (by simp only [List.length_cons]; omega)
          (by simp) hnc hlast
        rcases hP with herr | ⟨v, rest₁, ctr₁, heq, hnc₁, hlast₁, himp₁⟩
        · rw [herr]
        · rw [heq]
          dsimp only
          have hcons := (parse_consume pf).1 (t :: rest) ctr v rest₁ ctr₁ heq
          simp only [List.length_cons] at hcons
          have hL := ihL rest₁ ctr₁ (by omega) hnc₁ hlast₁
          rw [hL]

/-- On a token list containing `"("` but no `")"`, not ending in a
quote marker, the top-level parse loop raises UnmatchedParenthesis. -/
lemma parse_open_paren :
    ∀ pf ts ctr, 2 * ts.length + 3 ≤ pf → "(" ∈ ts → ")" ∉ ts →
      ts.getLast? ≠ some quoteTok → parse pf ts ctr = .error .unmatchedParen := by
  intro pf
  induction pf with
  | zero =>
    intro ts ctr hf
    omega
  | succ pf ih =>
    intro ts ctr hf hop hnc hlast
    cases ts with
    | nil => simp at hop
    | cons t rest =>
      simp only [List.length_cons] at hf
      simp only [parse]
      have hP := (open_paren_err pf).1 (t :: rest) ctr (by simp only [List.length_cons]; omega)
        (by simp) hnc hlast
      rcases hP with herr | ⟨v, rest₁, ctr₁, heq, hnc₁, hlast₁, himp₁⟩
      · rw [herr]
      · rw [heq]
        dsimp only
        have hcons := (parse_consume pf).1 (t :: rest) ctr v rest₁ ctr₁ heq
        simp only [List.length_cons] at hcons
        have := ih rest₁ ctr₁ (by omega) (himp₁ hop) hnc₁ hlast₁
        rw [this]

/-- Claim C8, as stated by the spec, is refuted here: the input `('`
opens a list that is never closed and its token sequence is exhausted
before any `)`, yet evaluate raises the host TypeError from the
dangling quote inside the list, not UnmatchedParenthesis. -/
theorem claim8_counterexample :
    evaluate 5 ("(" ++ quoteTok) = .error .hostTypeError
    ∧ Err.hostTypeError ≠ Err.unmatchedParen :=
  ⟨by rfl, by decide⟩

/-- Claim C8 (amended): for every input whose tokens contain an opening
`(` but no `)` at all and do not end with a dangling quote marker —
such as `(+ 1 2` — evaluate raises UnmatchedParenthesis and produces no
result; an unclosed-list input may instead fail with a different error
that occurs first (a dangling quote inside it, or a stray `)`). -/
theorem claim8_unmatched_paren (fuel : ℕ) (code : String)
    (hop : "(" ∈ tokenize code) (hnc : ")" ∉ tokenize code)
    (hlast : (tokenize code).getLast? ≠ some quoteTok) :
    evaluate fuel code = .error .unmatchedParen := by
  unfold evaluate
  rw [parse_open_paren (parseFuel (tokenize code)) (tokenize code) 0
    (by simp only [parseFuel]; omega) hop hnc hlast]

/-- Witness for `claim8_unmatched_paren`: the spec's own example
`(+ 1 2`. -/
theorem claim8_unmatched_paren_witness :
    evaluate 7 "(+ 1 2" = .error .unmatchedParen :=
  claim8_unmatched_paren 7 "(+ 1 2" (by decide) (by decide) (by decide)

/-! ## Claim C1: closure environment capture -/

lemma applyPrim_preserve (p : Prim) (args : List Value) (σ : St) (v : Value) (σ' : St)
    (h : applyPrim p args σ = .ok (v, σ')) :
    σ'.heap = σ.heap ∧ σ.fresh ≤ σ'.fresh := by
  cases p <;> simp only [applyPrim] at h <;> repeat' split at h
  all_goals
    first
    | exact Except.noConfusion h
    | · simp only [Except.ok.injEq, Prod.mk.injEq] at h
        obtain ⟨-, h2⟩ := h
        subst h2
        exact ⟨rfl, by simp [bumpFresh]⟩

/-- The composition step of the preservation invariant. -/
lemma keep_trans {envr : ℕ} {σ σ₁ σ' : St}
    (h1 : σ.fresh ≤ σ₁.fresh ∧ ∀ r, r ≠ envr → r < σ.fresh → σ₁.heap r = σ.heap r)
    (h2 : σ₁.fresh ≤ σ'.fresh ∧ ∀ r, r ≠ envr → r < σ₁.fresh → σ'.heap r = σ₁.heap r) :
    σ.fresh ≤ σ'.fresh ∧ ∀ r, r ≠ envr → r < σ.fresh → σ'.heap r = σ.heap r :=
  ⟨h1.1.trans h2.1,
   fun r hr hlt => (h2.2 r hr (lt_of_lt_of_le hlt h1.1)).trans (h1.2 r hr hlt)⟩

/-- Evaluation can mutate only the environment it runs in and
environments allocated during it: every other pre-existing environment
object is untouched, and the allocation counter never decreases.
Applying a user function mutates no pre-existing environment at all
(its `defun`s target the fresh call-time copy). -/
lemma eval_preserve (fuel : ℕ) :
    (∀ e envr σ v σ', evaluateExpression fuel e envr σ = .ok (v, σ') →
      σ.fresh ≤ σ'.fresh ∧ ∀ r, r ≠ envr → r < σ.fresh → σ'.heap r = σ.heap r)
    ∧ (∀ es envr σ vs σ', evalArgs fuel es envr σ = .ok (vs, σ') →
      σ.fresh ≤ σ'.fresh ∧ ∀ r, r ≠ envr → r < σ.fresh → σ'.heap r = σ.heap r)
    ∧ (∀ es envr σ acc v σ', evalSeq fuel es envr σ acc = .ok (v, σ') →
      σ.fresh ≤ σ'.fresh ∧ ∀ r, r ≠ envr → r < σ.fresh → σ'.heap r = σ.heap r)
    ∧ (∀ params body capRef args σ v σ',
        applyClosure fuel params body capRef args σ = .ok (v, σ') →
      σ.fresh ≤ σ'.fresh ∧ ∀ r, r < σ.fresh → σ'.heap r = σ.heap r) := by
  induction fuel with
  | zero =>
    refine ⟨?_, ?_, ?_, ?_⟩
    · intro e envr σ v σ' h
      exact Except.noConfusion h
    · intro es envr σ vs σ' h
      exact Except.noConfusion h
    · intro es envr σ acc v σ' h
      exact Except.noConfusion h
    · intro params body capRef args σ v σ' h
      exact Except.noConfusion h
  | succ fuel ih =>
    obtain ⟨ihE, ihA, ihS, ihC⟩ := ih
    refine ⟨?_, ?_, ?_, ?_⟩
    · intro e envr σ v σ' h
      cases e with
      | num q =>
        simp only [evaluateExpression, Except.ok.injEq, Prod.mk.injEq] at h
        obtain ⟨-, h2⟩ := h
        subst h2
        exact ⟨le_rfl, fun r _ _ => rfl⟩
      | nan =>
        simp only [evaluateExpression, Except.ok.injEq, Prod.mk.injEq] at h
        obtain ⟨-, h2⟩ := h
        subst h2
        exact ⟨le_rfl, fun r _ _ => rfl⟩
      | inf b =>
        simp only [evaluateExpression, Except.ok.injEq, Prod.mk.injEq] at h
        obtain ⟨-, h2⟩ := h
        subst h2
        exact ⟨le_rfl, fun r _ _ => rfl⟩
      | nil =>
        simp only [evaluateExpression, Except.ok.injEq, Prod.mk.injEq] at h
        obtain ⟨-, h2⟩ := h
        subst h2
        exact ⟨le_rfl, fun r _ _ => rfl⟩
      | bool b =>
        simp only [evaluateExpression, Except.ok.injEq, Prod.mk.injEq] at h
        obtain ⟨-, h2⟩ := h
        subst h2
        exact ⟨le_rfl, fun r _ _ => rfl⟩
      | undef => exact Except.noConfusion h
      | sym s =>
        simp only [evaluateExpression] at h
        split at h
        · exact Except.noConfusion h
        · exact Except.noConfusion h
        · exact Except.noConfusion h
        · exact Except.noConfusion h
        · simp only [Except.ok.injEq, Prod.mk.injEq] at h
          obtain ⟨-, h2⟩ := h
          subst h2
          exact ⟨le_rfl, fun r _ _ => rfl⟩
      | list id elems =>
        simp only [evaluateExpression] at h
        cases elems with
        | nil =>
          simp only [Except.ok.injEq, Prod.mk.injEq] at h
          obtain ⟨-, h2⟩ := h
          subst h2
          exact ⟨le_rfl, fun r _ _ => rfl⟩
        | cons first rest =>
          cases first with
          | sym s =>
            dsimp only at h
            by_cases hq : s = "quote"
            · rw [if_pos hq] at h
              simp only [Except.ok.injEq, Prod.mk.injEq] at h
              obtain ⟨-, h2⟩ := h
              subst h2
              exact ⟨le_rfl, fun r _ _ => rfl⟩
            · rw [if_neg hq] at h
              by_cases hif : s = "if"
              · rw [if_pos hif] at h
                cases hC : evaluateExpression fuel ((((.sym s : Value) :: rest).get? 1).getD .undef) envr σ with
                | error e => rw [hC] at h; exact Except.noConfusion h
                | ok r =>
                  obtain ⟨c, σ₁⟩ := r
                  rw [hC] at h
                  dsimp only at h
                  have k1 := ihE _ envr σ c σ₁ hC
                  by_cases hb : jsTruthy c
                  · rw [if_pos hb] at h
                    exact keep_trans k1 (ihE _ envr σ₁ v σ' h)
                  · rw [if_neg hb] at h
                    exact keep_trans k1 (ihE _ envr σ₁ v σ' h)
              · rw [if_neg hif] at h
                by_cases hd : s = "defun"
                · rw [if_pos hd] at h
                  simp only [Except.ok.injEq, Prod.mk.injEq] at h
                  obtain ⟨-, h2⟩ := h
                  subst h2
                  refine ⟨le_rfl, fun r hr hlt => ?_⟩
                  simp [updateHeap, if_neg hr]
                · rw [if_neg hd] at h
                  cases hg : envGet (σ.heap envr) s with
                  | none => rw [hg] at h; exact Except.noConfusion h
                  | some bv =>
                    rw [hg] at h
                    cases bv with
                    | val w => exact Except.noConfusion h
                    | undef => exact Except.noConfusion h
                    | prim p =>
                      dsimp only at h
                      cases hA : evalArgs fuel rest envr σ with
                      | error e => rw [hA] at h; exact Except.noConfusion h
                      | ok r =>
                        obtain ⟨argv, σ₁⟩ := r
                        rw [hA] at h
                        dsimp only at h
                        have k1 := ihA rest envr σ argv σ₁ hA
                        have k2 := applyPrim_preserve p argv σ₁ v σ' h
                        exact ⟨k1.1.trans k2.2,
                          fun r hr hlt => by rw [k2.1]; exact k1.2 r hr hlt⟩
                    | closure params body capRef =>
                      dsimp only at h
                      cases hA : evalArgs fuel rest envr σ with
                      | error e => rw [hA] at h; exact Except.noConfusion h
                      | ok r =>
                        obtain ⟨argv, σ₁⟩ := r
                        rw [hA] at h
                        dsimp only at h
                        have k1 := ihA rest envr σ argv σ₁ hA
                        have k2 := ihC params body capRef argv σ₁ v σ' h
                        exact ⟨k1.1.trans k2.1,
                          fun r hr hlt =>
                            (k2.2 r (lt_of_lt_of_le hlt k1.1)).trans (k1.2 r hr hlt)⟩
          | num q =>
            dsimp only at h
            cases hH : evaluateExpression fuel (.num q) envr σ with
            | error e => rw [hH] at h; exact Except.noConfusion h
            | ok r => obtain ⟨w, σ₁⟩ := r; rw [hH] at h; exact Except.noConfusion h
          | nan =>
            dsimp only at h
            cases hH : evaluateExpression fuel .nan envr σ with
            | error e => rw [hH] at h; exact Except.noConfusion h
            | ok r => obtain ⟨w, σ₁⟩ := r; rw [hH] at h; exact Except.noConfusion h
          | inf b =>
            dsimp only at h
            cases hH : evaluateExpression fuel (.inf b) envr σ with
            | error e => rw [hH] at h; exact Except.noConfusion h
            | ok r => obtain ⟨w, σ₁⟩ := r; rw [hH] at h; exact Except.noConfusion h
          | bool b =>
            dsimp only at h
            cases hH : evaluateExpression fuel (.bool b) envr σ with
            | error e => rw [hH] at h; exact Except.noConfusion h
            | ok r => obtain ⟨w, σ₁⟩ := r; rw [hH] at h; exact Except.noConfusion h
          | nil =>
            dsimp only at h
            cases hH : evaluateExpression fuel .nil envr σ with
            | error e => rw [hH] at h; exact Except.noConfusion h
            | ok r => obtain ⟨w, σ₁⟩ := r; rw [hH] at h; exact Except.noConfusion h
          | undef =>
            dsimp only at h
            cases hH : evaluateExpression fuel .undef envr σ with
            | error e => rw [hH] at h; exact Except.noConfusion h
            | ok r => obtain ⟨w, σ₁⟩ := r; rw [hH] at h; exact Except.noConfusion h
          | list id2 elems2 =>
            dsimp only at h
            cases hH : evaluateExpression fuel (.list id2 elems2) envr σ with
            | error e => rw [hH] at h; exact Except.noConfusion h
            | ok r => obtain ⟨w, σ₁⟩ := r; rw [hH] at h; exact Except.noConfusion h
    · intro es envr σ vs σ' h
      cases es with
      | nil =>
        simp only [evalArgs, Except.ok.injEq, Prod.mk.injEq] at h
        obtain ⟨-, h2⟩ := h
        subst h2
        exact ⟨le_rfl, fun r _ _ => rfl⟩
      | cons e es =>
        simp only [evalArgs] at h
        cases hE : evaluateExpression fuel e envr σ with
        | error err => rw [hE] at h; exact Except.noConfusion h
        | ok r =>
          obtain ⟨w, σ₁⟩ := r
          rw [hE] at h
          dsimp only at h
          cases hR : evalArgs fuel es envr σ₁ with
          | error err => rw [hR] at h; exact Except.noConfusion h
          | ok r2 =>
            obtain ⟨ws, σ₂⟩ := r2
            rw [hR] at h
            simp only [Except.ok.injEq, Prod.mk.injEq] at h
            obtain ⟨-, h2⟩ := h
            subst h2
            exact keep_trans (ihE e envr σ w σ₁ hE) (ihA es envr σ₁ ws σ₂ hR)
    · intro es envr σ acc v σ' h
      cases es with
      | nil =>
        simp only [evalSeq, Except.ok.injEq, Prod.mk.injEq] at h
        obtain ⟨-, h2⟩ := h
        subst h2
        exact ⟨le_rfl, fun r _ _ => rfl⟩
      | cons e es =>
        simp only [evalSeq] at h
        cases hE : evaluateExpression fuel e envr σ with
        | error err => rw [hE] at h; exact Except.noConfusion h
        | ok r =>
          obtain ⟨w, σ₁⟩ := r
          rw [hE] at h
          dsimp only at h
          exact keep_trans (ihE e envr σ w σ₁ hE) (ihS es envr σ₁ w v σ' h)
    · intro params body capRef args σ v σ' h
      cases params with
      | list id ps =>
        simp only [applyClosure] at h
        have kS := ihS body σ.fresh
          { heap := updateHeap σ.heap σ.fresh (bindParams (σ.heap capRef) ps args),
            fresh := σ.fresh + 1, output := σ.output } .nil v σ' h
        refine ⟨by have := kS.1; simp at this ⊢; omega, fun r hlt => ?_⟩
        have hne : r ≠ σ.fresh := by omega
        have := kS.2 r hne (by simp; omega)
        rw [this]
        simp [updateHeap, if_neg hne]
      | num q => exact Except.noConfusion h
      | nan => exact Except.noConfusion h
      | inf b => exact Except.noConfusion h
      | sym s => exact Except.noConfusion h
      | bool b => exact Except.noConfusion h
      | nil => exact Except.noConfusion h
      | undef => exact Except.noConfusion h

/-- Claim C1, as stated by the spec, is refuted here: the closure
created by `defun` spreads `{ ...env }` at call time, not at definition
time, so a later `defun` rebinding `g` IS visible to a later call of
`f`.  Under the claim the program below would return `7` (the value of
`g` when `f` was defined); the interpreter returns `8`. -/
theorem claim1_counterexample :
    evaluate 20 "(defun g () 7) (defun f () (g)) (defun g () 8) (f)" = .ok ("8", "8") := by
  rfl

/-- Claim C1 (amended): applying a user function copies its defining
environment at call time — the local environment is the spread of the
captured environment reference as it is at the moment of the call, plus
the parameter bindings (second conjunct, definitional) — so mutations
to the defining environment made after the function's definition are
visible to later calls.  What does hold is the reverse direction: a
call never mutates any pre-existing environment object, every
environment allocated before the call (its defining environment
included) is bitwise unchanged after it, and the allocation counter
never decreases (first conjunct). -/
theorem claim1_call_time_env (fuel : ℕ) (params : Value) (body : List Value)
    (capRef : ℕ) (args : List Value) (σ : St) (v : Value) (σ' : St)
    (h : applyClosure fuel params body capRef args σ = .ok (v, σ')) :
    (σ.fresh ≤ σ'.fresh ∧ ∀ r, r < σ.fresh → σ'.heap r = σ.heap r)
    ∧ (∀ (id : ℕ) (ps : List Value), applyClosure (fuel + 1) (.list id ps) body capRef args σ
        = evalSeq fuel body σ.fresh
            { heap := updateHeap σ.heap σ.fresh (bindParams (σ.heap capRef) ps args),
              fresh := σ.fresh + 1, output := σ.output } .nil) :=
  ⟨(eval_preserve fuel).2.2.2 params body capRef args σ v σ' h, fun _ _ => rfl⟩

/-- Witness for `claim1_call_time_env`: a parameterless closure whose
body is a literal leaves the pre-existing environment `0` unchanged. -/
theorem claim1_call_time_env_witness :
    ∃ v σ', applyClosure 3 (.list 0 []) [.num 5] 0 [] tinyState = .ok (v, σ') ∧
      σ'.heap 0 = tinyState.heap 0 := by
  refine ⟨_, _, rfl, ?_⟩
  exact ((claim1_call_time_env 3 (.list 0 []) [.num 5] 0 [] tinyState _ _ rfl).1).2 0
    (by decide)

/-! ## Claim C6: atom classification

The spec-side grammar of a decimal numeric literal, written from the
claim's words (optional sign, digits with optional fraction, optional
exponent), and the further shapes JS `Number` actually accepts. -/

def IsSignOpt (sgn : List Char) : Prop := sgn = [] ∨ sgn = ['+'] ∨ sgn = ['-']

/-- What may follow the mantissa: nothing, or `e`/`E` with an optionally
signed nonempty digit string. -/
def IsExpoTail (ex : List Char) : Prop :=
  ex = [] ∨ ∃ (e : Char) (sgn ds : List Char), (e = 'e' ∨ e = 'E') ∧ IsSignOpt sgn ∧
    ds ≠ [] ∧ (∀ c ∈ ds, isDigitC c) ∧ ex = e :: (sgn ++ ds)

/-- A decimal mantissa: a nonempty digit string, or a digit string with
a point somewhere such that at least one side is nonempty. -/
def IsMantissa (m : List Char) : Prop :=
  (∃ I, I ≠ [] ∧ (∀ c ∈ I, isDigitC c) ∧ m = I)
  ∨ (∃ I F, (I ≠ [] ∨ F ≠ []) ∧ (∀ c ∈ I, isDigitC c) ∧ (∀ c ∈ F, isDigitC c) ∧
      m = I ++ '.' :: F)

/-- The claim's notion: a (full-token) decimal numeric literal. -/
def IsDecimalLiteral (cs : List Char) : Prop :=
  ∃ sgn m ex, IsSignOpt sgn ∧ IsMantissa m ∧ IsExpoTail ex ∧ cs = sgn ++ m ++ ex

/-- The radix-prefixed integer literals JS `Number` also accepts. -/
def IsRadixLiteral (cs : List Char) : Prop :=
  ∃ (p : Char) (ds : List Char), ds ≠ [] ∧ cs = '0' :: p :: ds ∧
    (((p = 'x' ∨ p = 'X') ∧ ∀ c ∈ ds, (hexDigitVal c).isSome)
     ∨ ((p = 'b' ∨ p = 'B') ∧ ∀ c ∈ ds, (boundedDigit 49 c).isSome)
     ∨ ((p = 'o' ∨ p = 'O') ∧ ∀ c ∈ ds, (boundedDigit 55 c).isSome))

/-- The `Infinity` literals JS `Number` also accepts. -/
def IsInfinityLiteral (cs : List Char) : Prop :=
  cs = "Infinity".data ∨ cs = '+' :: "Infinity".data ∨ cs = '-' :: "Infinity".data

lemma takeWhile_all {p : Char → Bool} {l : List Char} : ∀ c ∈ l.takeWhile p, p c := by
  induction l with
  | nil => intro c hc; simp at hc
  | cons a l ih =>
    intro c hc
    rw [List.takeWhile_cons] at hc
    by_cases ha : p a
    · rw [if_pos ha] at hc
      rcases List.mem_cons.mp hc with hc | hc
      · exact hc ▸ ha
      · exact ih c hc
    · rw [if_neg ha] at hc
      simp at hc

lemma dropWhile_head_not {p : Char → Bool} {l : List Char} {c : Char} {rest : List Char}
    (h : l.dropWhile p = c :: rest) : p c = false := by
  induction l with
  | nil => simp at h
  | cons a l ih =>
    rw [List.dropWhile_cons] at h
    by_cases ha : p a
    · rw [if_pos ha] at h
      exact ih h
    · rw [if_neg ha] at h
      injection h with h1 _
      rw [← h1]
      exact Bool.not_eq_true _ ▸ (by simpa using ha)

lemma takeWhile_of_all_append {p : Char → Bool} {I rest : List Char}
    (hI : ∀ c ∈ I, p c) (hrest : ∀ c tl, rest = c :: tl → p c = false) :
    (I ++ rest).takeWhile p = I ∧ (I ++ rest).dropWhile p = rest := by
  induction I with
  | nil =>
    cases rest with
    | nil => simp
    | cons c tl =>
      have := hrest c tl rfl
      simp [List.takeWhile_cons, List.dropWhile_cons, this]
  | cons a I ih =>
    have ha := hI a (List.mem_cons_self _ _)
    have ⟨h1, h2⟩ := ih (fun c hc => hI c (List.mem_cons_of_mem _ hc))
    constructor
    · rw [List.cons_append, List.takeWhile_cons, if_pos ha, h1]
    · rw [List.cons_append, List.dropWhile_cons, if_pos ha, h2]

lemma span_fst (p : Char → Bool) (l : List Char) : (l.span p).1 = l.takeWhile p := by
  simp [List.span_eq_take_drop]

lemma span_snd (p : Char → Bool) (l : List Char) : (l.span p).2 = l.dropWhile p := by
  simp [List.span_eq_take_drop]

lemma digit_ne_of (c : Char) (h : isDigitC c = true) :
    c ≠ '+' ∧ c ≠ '-' ∧ c ≠ '.' ∧ c ≠ 'e' ∧ c ≠ 'E' := by
  simp only [isDigitC, Bool.and_eq_true, decide_eq_true_eq] at h
  refine ⟨?_, ?_, ?_, ?_, ?_⟩ <;> intro hc <;> subst hc <;> simp at h

lemma isSome_map {A B : Type} (f : A → B) (o : Option A) :
    (o.map f).isSome = o.isSome := by
  cases o <;> rfl

lemma radixValAux_isSome (dv : Char → Option ℕ) (b : ℕ) (cs : List Char) :
    ∀ acc, (radixValAux dv b cs acc).isSome = true ↔ ∀ c ∈ cs, (dv c).isSome = true := by
  induction cs with
  | nil => intro acc; simp [radixValAux]
  | cons c cs ih =>
    intro acc
    simp only [radixValAux]
    cases hdv : dv c with
    | none => simp [hdv]
    | some d => simp [hdv, ih]

lemma radixVal_isSome (dv : Char → Option ℕ) (b : ℕ) (cs : List Char) :
    (radixVal dv b cs).isSome = true ↔ (cs ≠ [] ∧ ∀ c ∈ cs, (dv c).isSome = true) := by
  simp only [radixVal]
  by_cases h : cs.isEmpty
  · rw [if_pos h]
    simp [List.isEmpty_iff.mp h]
  · rw [if_neg h]
    rw [radixValAux_isSome]
    simp [List.isEmpty_iff] at h
    simp [h]

lemma expDigits_isSome (ds : List Char) :
    (expDigits ds).isSome = true ↔
      ∃ sgn ds', IsSignOpt sgn ∧ ds' ≠ [] ∧ (∀ c ∈ ds', isDigitC c) ∧ ds = sgn ++ ds' := by
  cases ds with
  | nil =>
    simp only [expDigits, Option.isSome_none, Bool.false_eq_true, false_iff]
    rintro ⟨sgn, ds', hs, hne, hall, heq⟩
    rcases List.append_eq_nil.mp heq.symm with ⟨-, h2⟩
    exact hne h2
  | cons c r =>
    simp only [expDigits]
    by_cases hp : c = '+'
    · rw [if_pos hp]
      subst hp
      constructor
      · intro h
        split_ifs at h with hcond
        · exact ⟨['+'], r, Or.inr (Or.inl rfl), hcond.1, by simpa [List.all_eq_true] using hcond.2, rfl⟩
        · simp at h
      · rintro ⟨sgn, ds', hs, hne, hall, heq⟩
        rcases hs with hs | hs | hs
        · subst hs
          simp only [List.nil_append] at heq
          have : isDigitC '+' = true := hall '+' (heq ▸ List.mem_cons_self _ _)
          simp [isDigitC] at this
        · subst hs
          simp only [List.cons_append, List.nil_append] at heq
          injection heq with _ h2
          subst h2
          rw [if_pos ⟨hne, by simpa [List.all_eq_true] using hall⟩]
          rfl
        · subst hs
          simp only [List.cons_append, List.nil_append] at heq
          injection heq with h1 _
          exact absurd h1 (by decide)
    · rw [if_neg hp]
      by_cases hmn : c = '-'
      · rw [if_pos hmn]
        subst hmn
        constructor
        · intro h
          split_ifs at h with hcond
          · exact ⟨['-'], r, Or.inr (Or.inr rfl), hcond.1, by simpa [List.all_eq_true] using hcond.2, rfl⟩
          · simp at h
        · rintro ⟨sgn, ds', hs, hne, hall, heq⟩
          rcases hs with hs | hs | hs
          · subst hs
            simp only [List.nil_append] at heq
            have : isDigitC '-' = true := hall '-' (heq ▸ List.mem_cons_self _ _)
            simp [isDigitC] at this
          · subst hs
            simp only [List.cons_append, List.nil_append] at heq
            injection heq with h1 _
            exact absurd h1 (by decide)
          · subst hs
            simp only [List.cons_append, List.nil_append] at heq
            injection heq with _ h2
            subst h2
            rw [if_pos ⟨hne, by simpa [List.all_eq_true] using hall⟩]
            rfl
      · rw [if_neg hmn]
        constructor
        · intro h
          split_ifs at h with hcond
          · exact ⟨[], c :: r, Or.inl rfl, by simp, by simpa [List.all_eq_true] using hcond, rfl⟩
          · simp at h
        · rintro ⟨sgn, ds', hs, hne, hall, heq⟩
          rcases hs with hs | hs | hs
          · subst hs
            simp only [List.nil_append] at heq
            subst heq
            rw [if_pos (by simpa [List.all_eq_true] using hall)]
            rfl
          · subst hs
            simp only [List.cons_append, List.nil_append] at heq
            injection heq with h1 _
            exact absurd h1 hp
          · subst hs
            simp only [List.cons_append, List.nil_append] at heq
            injection heq with h1 _
            exact absurd h1 hmn

lemma applyExpPart_isSome (q : ℚ) (ex : List Char) :
    (applyExpPart q ex).isSome = true ↔ IsExpoTail ex := by
  cases ex with
  | nil => simp [applyExpPart, IsExpoTail]
  | cons c rest =>
    simp only [applyExpPart]
    by_cases hc : c = 'e' ∨ c = 'E'
    · rw [if_pos hc, isSome_map, expDigits_isSome]
      constructor
      · rintro ⟨sgn, ds', hs, hne, hall, heq⟩
        exact Or.inr ⟨c, sgn, ds', hc, hs, hne, hall, by rw [heq]⟩
      · rintro (h | ⟨e, sgn, ds', he, hs, hne, hall, heq⟩)
        · exact List.noConfusion h
        · injection heq with _ h2
          exact ⟨sgn, ds', hs, hne, hall, h2⟩
    · rw [if_neg hc]
      simp only [Option.isSome_none, Bool.false_eq_true, false_iff]
      rintro (h | ⟨e, sgn, ds', he, hs, hne, hall, heq⟩)
      · exact List.noConfusion h
      · injection heq with h1 _
        exact hc (h1 ▸ he)

lemma expoTail_head {ex : List Char} (he : IsExpoTail ex) :
    ∀ c tl, ex = c :: tl → isDigitC c = false ∧ c ≠ '.' := by
  intro c tl heq
  rcases he with he | ⟨e, sgn, ds, hee, _, _, _, hex⟩
  · rw [he] at heq
    exact List.noConfusion heq
  · rw [hex] at heq
    injection heq with h1 _
    rcases hee with hee | hee <;> subst hee <;> rw [← h1] <;> exact ⟨by decide, by decide⟩

lemma parseDecCore_sound (m ex : List Char) (hm : IsMantissa m) (he : IsExpoTail ex) :
    (parseDecCore (m ++ ex)).isSome = true := by
  rcases hm with ⟨I, hne, hdig, hmI⟩ | ⟨I, F, hIF, hdI, hdF, hmIF⟩
  · subst hmI
    have hsp := @takeWhile_of_all_append isDigitC m ex
      (fun c hc => hdig c hc) (fun c tl htl => (expoTail_head he c tl htl).1)
    cases hex : ex with
    | nil =>
      subst hex
      simp only [parseDecCore, List.span_eq_take_drop, hsp.1, hsp.2]
      rw [if_neg hne]
      rfl
    | cons c tl =>
      subst hex
      have hc := expoTail_head he c tl rfl
      simp only [parseDecCore, List.span_eq_take_drop, hsp.1, hsp.2]
      rw [if_neg hc.2, if_neg hne]
      rw [applyExpPart_isSome]
      exact he
  · subst hmIF
    have hrest : ∀ c tl, ('.' :: (F ++ ex)) = c :: tl → isDigitC c = false := by
      intro c tl htl
      injection htl with h1 _
      rw [← h1]
      decide
    have hsp := @takeWhile_of_all_append isDigitC I ('.' :: (F ++ ex))
      (fun c hc => hdI c hc) hrest
    have hsp2 := @takeWhile_of_all_append isDigitC F ex
      (fun c hc => hdF c hc) (fun c tl htl => (expoTail_head he c tl htl).1)
    have hflat : I ++ '.' :: F ++ ex = I ++ ('.' :: (F ++ ex)) := by simp
    rw [hflat]
    simp only [parseDecCore, List.span_eq_take_drop, hsp.1, hsp.2, hsp2.1, hsp2.2, if_true]
    rw [if_neg (by tauto)]
    rw [applyExpPart_isSome]
    exact he

lemma parseDecCore_complete (cs : List Char) (h : (parseDecCore cs).isSome = true) :
    ∃ m ex, IsMantissa m ∧ IsExpoTail ex ∧ cs = m ++ ex := by
  have hdecomp : cs.takeWhile isDigitC ++ cs.dropWhile isDigitC = cs :=
    List.takeWhile_append_dropWhile isDigitC cs
  have hdigs : ∀ c ∈ cs.takeWhile isDigitC, isDigitC c = true := fun c hc => takeWhile_all c hc
  simp only [parseDecCore, List.span_eq_take_drop] at h
  cases hR : cs.dropWhile isDigitC with
  | nil =>
    rw [hR] at h
    dsimp only at h
    split_ifs at h with hI
    · simp at h
    · refine ⟨cs.takeWhile isDigitC, [],
        Or.inl ⟨cs.takeWhile isDigitC, hI, hdigs, rfl⟩,
        Or.inl rfl, ?_⟩
      conv_lhs => rw [← hdecomp, hR]
  | cons c rest2 =>
    rw [hR] at h
    dsimp only at h
    by_cases hc : c = '.'
    · rw [if_pos hc] at h
      subst hc
      split_ifs at h with hIF
      · simp at h
      · rw [applyExpPart_isSome] at h
        have hdec2 : rest2.takeWhile isDigitC ++ rest2.dropWhile isDigitC = rest2 :=
          List.takeWhile_append_dropWhile isDigitC rest2
        have hdigs2 : ∀ c ∈ rest2.takeWhile isDigitC, isDigitC c = true :=
          fun c hc => takeWhile_all c hc
        refine ⟨cs.takeWhile isDigitC ++ '.' :: rest2.takeWhile isDigitC,
          rest2.dropWhile isDigitC,
          Or.inr ⟨cs.takeWhile isDigitC, rest2.takeWhile isDigitC,
            by tauto, hdigs, hdigs2, rfl⟩,
          by simpa [List.span_eq_take_drop] using h, ?_⟩
        conv_lhs => rw [← hdecomp, hR, ← hdec2]
        simp
    · rw [if_neg hc] at h
      split_ifs at h with hI
      · simp at h
      · rw [applyExpPart_isSome] at h
        refine ⟨cs.takeWhile isDigitC, c :: rest2,
          Or.inl ⟨cs.takeWhile isDigitC, hI, hdigs, rfl⟩, h, ?_⟩
        conv_lhs => rw [← hdecomp, hR]

lemma mantissa_head {m : List Char} (hm : IsMantissa m) :
    ∃ c tl, m = c :: tl ∧ (isDigitC c = true ∨ c = '.') := by
  rcases hm with ⟨I, hne, hdig, hmI⟩ | ⟨I, F, hIF, hdI, hdF, hmIF⟩
  · subst hmI
    cases m with
    | nil => exact absurd rfl hne
    | cons c tl => exact ⟨c, tl, rfl, Or.inl (hdig c (List.mem_cons_self _ _))⟩
  · subst hmIF
    cases I with
    | nil => exact ⟨'.', F, by simp, Or.inr rfl⟩
    | cons c I' =>
      exact ⟨c, I' ++ '.' :: F, by simp, Or.inl (hdI c (List.mem_cons_self _ _))⟩

lemma parseUnsignedNum_isSome (cs : List Char) :
    (parseUnsignedNum cs).isSome = true ↔
      (cs = "Infinity".data ∨ ∃ m ex, IsMantissa m ∧ IsExpoTail ex ∧ cs = m ++ ex) := by
  by_cases hi : cs = "Infinity".data
  · simp [parseUnsignedNum, hi]
  · simp only [parseUnsignedNum, if_neg hi, isSome_map]
    constructor
    · intro h
      exact Or.inr (parseDecCore_complete cs h)
    · rintro (h | ⟨m, ex, hm, he, heq⟩)
      · exact absurd h hi
      · rw [heq]
        exact parseDecCore_sound m ex hm he

lemma infinity_data_eq : "Infinity".data = 'I' :: "nfinity".data := rfl

lemma signedParseNum_isSome (cs : List Char) (hne : cs ≠ []) :
    (signedParseNum cs).isSome = true ↔ (IsDecimalLiteral cs ∨ IsInfinityLiteral cs) := by
  cases cs with
  | nil => exact absurd rfl hne
  | cons c r =>
    simp only [signedParseNum]
    by_cases hp : c = '+'
    · subst hp
      rw [if_pos rfl, parseUnsignedNum_isSome]
      constructor
      · rintro (h | ⟨m, ex, hm, he, heq⟩)
        · exact Or.inr (Or.inr (Or.inl (by rw [h])))
        · exact Or.inl ⟨['+'], m, ex, Or.inr (Or.inl rfl), hm, he, by rw [heq]; rfl⟩
      · rintro (⟨sgn, m, ex, hs, hm, he, heq⟩ | hinf)
        · rcases hs with hs | hs | hs
          · subst hs
            simp only [List.nil_append] at heq
            obtain ⟨c0, tl, hm0, hd0⟩ := mantissa_head hm
            rw [hm0] at heq
            simp only [List.cons_append] at heq
            injection heq with h1 _
            rcases hd0 with hd0 | hd0
            · exact absurd h1.symm (digit_ne_of c0 hd0).1
            · rw [hd0] at h1
              exact absurd h1 (by decide)
          · subst hs
            simp only [List.cons_append, List.nil_append] at heq
            injection heq with _ h2
            exact Or.inr ⟨m, ex, hm, he, h2⟩
          · subst hs
            simp only [List.cons_append, List.nil_append] at heq
            injection heq with h1 _
            exact absurd h1 (by decide)
        · rcases hinf with h | h | h
          · rw [infinity_data_eq] at h
            injection h with h1 _
            exact absurd h1 (by decide)
          · injection h with _ h2
            exact Or.inl h2
          · injection h with h1 _
            exact absurd h1 (by decide)
    · rw [if_neg hp]
      by_cases hmn : c = '-'
      · subst hmn
        rw [if_pos rfl, isSome_map, parseUnsignedNum_isSome]
        constructor
        · rintro (h | ⟨m, ex, hm, he, heq⟩)
          · exact Or.inr (Or.inr (Or.inr (by rw [h])))
          · exact Or.inl ⟨['-'], m, ex, Or.inr (Or.inr rfl), hm, he, by rw [heq]; rfl⟩
        · rintro (⟨sgn, m, ex, hs, hm, he, heq⟩ | hinf)
          · rcases hs with hs | hs | hs
            · subst hs
              simp only [List.nil_append] at heq
              obtain ⟨c0, tl, hm0, hd0⟩ := mantissa_head hm
              rw [hm0] at heq
              simp only [List.cons_append] at heq
              injection heq with h1 _
              rcases hd0 with hd0 | hd0
              · exact absurd h1.symm (digit_ne_of c0 hd0).2.1
              · rw [hd0] at h1
                exact absurd h1 (by decide)
            · subst hs
              simp only [List.cons_append, List.nil_append] at heq
              injection heq with h1 _
              exact absurd h1 (by decide)
            · subst hs
              simp only [List.cons_append, List.nil_append] at heq
              injection heq with _ h2
              exact Or.inr ⟨m, ex, hm, he, h2⟩
          · rcases hinf with h | h | h
            · rw [infinity_data_eq] at h
              injection h with h1 _
              exact absurd h1 (by decide)
            · injection h with h1 _
              exact absurd h1 (by decide)
            · injection h with _ h2
              exact Or.inl h2
      · rw [if_neg hmn, parseUnsignedNum_isSome]
        constructor
        · rintro (h | ⟨m, ex, hm, he, heq⟩)
          · exact Or.inr (Or.inl (by rw [h]))
          · exact Or.inl ⟨[], m, ex, Or.inl rfl, hm, he, by rw [heq]; rfl⟩
        · rintro (⟨sgn, m, ex, hs, hm, he, heq⟩ | hinf)
          · rcases hs with hs | hs | hs
            · subst hs
              simp only [List.nil_append] at heq
              exact Or.inr ⟨m, ex, hm, he, heq⟩
            · subst hs
              simp only [List.cons_append, List.nil_append] at heq
              injection heq with h1 _
              exact absurd h1 hp
            · subst hs
              simp only [List.cons_append, List.nil_append] at heq
              injection heq with h1 _
              exact absurd h1 hmn
          · rcases hinf with h | h | h
            · exact Or.inl h
            · injection h with h1 _
              exact absurd h1 hp
            · injection h with h1 _
              exact absurd h1 hmn

/-- In a decimal literal starting with the digit `0`, the second
character can only be a digit, the point, or an exponent marker. -/
lemma decLit_second_char {cs : List Char} (h : IsDecimalLiteral cs) (c1 : Char)
    (rest : List Char) (heq : cs = '0' :: c1 :: rest) :
    isDigitC c1 = true ∨ c1 = '.' ∨ c1 = 'e' ∨ c1 = 'E' := by
  obtain ⟨sgn, m, ex, hs, hm, he, hcs⟩ := h
  rw [heq] at hcs
  rcases hs with hs | hs | hs
  all_goals subst hs
  · simp only [List.nil_append] at hcs
    rcases hm with ⟨I, hne, hdig, hmI⟩ | ⟨I, F, hIF, hdI, hdF, hmIF⟩
    · subst hmI
      cases m with
      | nil => exact absurd rfl hne
      | cons i0 I' =>
        cases I' with
        | nil =>
          simp only [List.cons_append, List.nil_append] at hcs
          injection hcs with _ h1
          rcases he with he | ⟨e, sg, ds, hee, _, _, _, hex⟩
          · rw [he] at h1
            exact List.noConfusion h1
          · rw [hex] at h1
            injection h1 with he1 _
            rcases hee with hee | hee
            · right; right; left; rw [he1, hee]
            · right; right; right; rw [he1, hee]
        | cons i1 I'' =>
          simp only [List.cons_append] at hcs
          injection hcs with _ h1
          injection h1 with h1a _
          left
          rw [h1a]
          exact hdig i1 (by simp)
    · subst hmIF
      cases I with
      | nil =>
        simp only [List.nil_append, List.cons_append] at hcs
        injection hcs with h0 _
        exact absurd h0.symm (by decide)
      | cons i0 I' =>
        cases I' with
        | nil =>
          simp only [List.cons_append, List.nil_append] at hcs
          injection hcs with _ h1
          injection h1 with h1a _
          right; left
          rw [h1a]
        | cons i1 I'' =>
          simp only [List.cons_append] at hcs
          injection hcs with _ h1
          injection h1 with h1a _
          left
          rw [h1a]
          exact hdI i1 (by simp)
  · simp only [List.cons_append, List.nil_append] at hcs
    injection hcs with h0 _
    exact absurd h0 (by decide)
  · simp only [List.cons_append, List.nil_append] at hcs
    injection hcs with h0 _
    exact absurd h0 (by decide)

lemma infinity_head {cs : List Char} (h : IsInfinityLiteral cs) :
    ∀ c tl, cs = c :: tl → (c = 'I' ∨ c = '+' ∨ c = '-') := by
  intro c tl heq
  rcases h with h | h | h
  · rw [heq, infinity_data_eq] at h
    injection h with h1 _
    exact Or.inl h1
  · rw [heq] at h
    injection h with h1 _
    exact Or.inr (Or.inl h1)
  · rw [heq] at h
    injection h with h1 _
    exact Or.inr (Or.inr h1)

lemma jsNumParse_one (c0 : Char) :
    jsNumParse (String.mk [c0]) = signedParseNum [c0] := rfl

lemma jsNumParse_two (c0 c1 : Char) (rest : List Char) :
    jsNumParse (String.mk (c0 :: c1 :: rest)) =
      if c0 = '0' ∧ (c1 = 'x' ∨ c1 = 'X') then
        (radixVal hexDigitVal 16 rest).map (fun (n : ℕ) => Value.num (n : ℚ))
      else if c0 = '0' ∧ (c1 = 'b' ∨ c1 = 'B') then
        (radixVal (boundedDigit 49) 2 rest).map (fun (n : ℕ) => Value.num (n : ℚ))
      else if c0 = '0' ∧ (c1 = 'o' ∨ c1 = 'O') then
        (radixVal (boundedDigit 55) 8 rest).map (fun (n : ℕ) => Value.num (n : ℚ))
      else signedParseNum (c0 :: c1 :: rest) := rfl

/-- **C6 counterexample.** The token `0x1a` is not a decimal numeric
literal (its second character is the letter x), yet the host
`Number("0x1a")` yields `26` and the parser classifies the token as the
Number `26`, not as the symbol `0x1a`: the numeric class accepted by the
code is strictly larger than the decimal literals of the claim. -/
theorem claim6_counterexample :
    (jsNumParse (String.mk ['0', 'x', '1', 'a'])).isSome = true ∧
    parseExpression 2 [String.mk ['0', 'x', '1', 'a']] 0 =
      .ok ((Value.num 26, []), 0) ∧
    ¬ IsDecimalLiteral ['0', 'x', '1', 'a'] := by
  refine ⟨rfl, rfl, ?_⟩
  intro h
  exact absurd (decLit_second_char h 'x' ['1', 'a'] rfl) (by decide)

/-- **C6.** For every nonempty atom token (not `(`, `)` or the quote
marker), the parser classifies it as a Number exactly when the whole
token is a decimal numeric literal, a radix-prefixed integer literal
(`0x`/`0b`/`0o`, upper or lower case prefix) or an `Infinity` literal
(optionally signed) -- not only for decimal literals, as the claim
states -- and otherwise classifies it as the Symbol obtained by
lowercasing the token.  Partial numeric prefixes are indeed rejected:
the three literal shapes all constrain the whole token. -/
theorem claim6_atom_classification (t : String) (hne : t.data ≠ [])
    (h1 : t ≠ "(") (h2 : t ≠ ")") (h3 : t ≠ quoteTok)
    (pf : ℕ) (rest : List String) (ctr : ℕ) :
    ((jsNumParse t).isSome = true ↔
      (IsDecimalLiteral t.data ∨ IsRadixLiteral t.data ∨ IsInfinityLiteral t.data)) ∧
    (∀ v, jsNumParse t = some v →
      parseExpression (pf + 1) (t :: rest) ctr = .ok ((v, rest), ctr)) ∧
    (jsNumParse t = none →
      parseExpression (pf + 1) (t :: rest) ctr = .ok ((.sym (toLowerStr t), rest), ctr)) := by
  refine ⟨?_, ?_, ?_⟩
  · obtain ⟨cs⟩ := t
    change (jsNumParse (String.mk cs)).isSome = true ↔
      (IsDecimalLiteral cs ∨ IsRadixLiteral cs ∨ IsInfinityLiteral cs)
    have hne' : cs ≠ [] := hne
    cases cs with
    | nil => exact absurd rfl hne'
    | cons c0 r =>
      cases r with
      | nil =>
        rw [jsNumParse_one, signedParseNum_isSome _ (by simp)]
        constructor
        · rintro (h | h)
          · exact Or.inl h
          · exact Or.inr (Or.inr h)
        · rintro (h | h | h)
          · exact Or.inl h
          · obtain ⟨p, ds, hds, hcs, _⟩ := h
            injection hcs with _ hcs2
            exact List.noConfusion hcs2
          · exact Or.inr h
      | cons c1 rest =>
        rw [jsNumParse_two]
        by_cases hx : c0 = '0' ∧ (c1 = 'x' ∨ c1 = 'X')
        · rw [if_pos hx, isSome_map, radixVal_isSome]
          obtain ⟨hx0, hx1⟩ := hx
          subst hx0
          constructor
          · rintro ⟨hrne, hall⟩
            exact Or.inr (Or.inl ⟨c1, rest, hrne, rfl, Or.inl ⟨hx1, hall⟩⟩)
          · rintro (h | h | h)
            · rcases hx1 with hc | hc <;> subst hc <;>
                exact absurd (decLit_second_char h _ _ rfl) (by decide)
            · obtain ⟨p, ds, hds, hcs, hf⟩ := h
              injection hcs with _ hcs2
              injection hcs2 with hp hds2
              refine ⟨by rw [hds2]; exact hds, ?_⟩
              rcases hf with ⟨_, hall⟩ | ⟨hpb, _⟩ | ⟨hpo, _⟩
              · intro c hc
                exact hall c (hds2 ▸ hc)
              · rcases hx1 with hc | hc <;> rcases hpb with hq | hq <;>
                  rw [hp, hq] at hc <;> exact absurd hc (by decide)
              · rcases hx1 with hc | hc <;> rcases hpo with hq | hq <;>
                  rw [hp, hq] at hc <;> exact absurd hc (by decide)
            · exact absurd (infinity_head h '0' (c1 :: rest) rfl) (by decide)
        · rw [if_neg hx]
          by_cases hb : c0 = '0' ∧ (c1 = 'b' ∨ c1 = 'B')
          · rw [if_pos hb, isSome_map, radixVal_isSome]
            obtain ⟨hb0, hb1⟩ := hb
            subst hb0
            constructor
            · rintro ⟨hrne, hall⟩
              exact Or.inr (Or.inl ⟨c1, rest, hrne, rfl, Or.inr (Or.inl ⟨hb1, hall⟩)⟩)
            · rintro (h | h | h)
              · rcases hb1 with hc | hc <;> subst hc <;>
                  exact absurd (decLit_second_char h _ _ rfl) (by decide)
              · obtain ⟨p, ds, hds, hcs, hf⟩ := h
                injection hcs with _ hcs2
                injection hcs2 with hp hds2
                refine ⟨by rw [hds2]; exact hds, ?_⟩
                rcases hf with ⟨hpx, _⟩ | ⟨_, hall⟩ | ⟨hpo, _⟩
                · exact absurd ⟨rfl, by rw [hp]; exact hpx⟩ hx
                · intro c hc
                  exact hall c (hds2 ▸ hc)
                · rcases hb1 with hc | hc <;> rcases hpo with hq | hq <;>
                    rw [hp, hq] at hc <;> exact absurd hc (by decide)
              · exact absurd (infinity_head h '0' (c1 :: rest) rfl) (by decide)
          · rw [if_neg hb]
            by_cases ho : c0 = '0' ∧ (c1 = 'o' ∨ c1 = 'O')
            · rw [if_pos ho, isSome_map, radixVal_isSome]
              obtain ⟨ho0, ho1⟩ := ho
              subst ho0
              constructor
              · rintro ⟨hrne, hall⟩
                exact Or.inr (Or.inl ⟨c1, rest, hrne, rfl,
                  Or.inr (Or.inr ⟨ho1, hall⟩)⟩)
              · rintro (h | h | h)
                · rcases ho1 with hc | hc <;> subst hc <;>
                    exact absurd (decLit_second_char h _ _ rfl) (by decide)
                · obtain ⟨p, ds, hds, hcs, hf⟩ := h
                  injection hcs with _ hcs2
                  injection hcs2 with hp hds2
                  refine ⟨by rw [hds2]; exact hds, ?_⟩
                  rcases hf with ⟨hpx, _⟩ | ⟨hpb, _⟩ | ⟨_, hall⟩
                  · exact absurd ⟨rfl, by rw [hp]; exact hpx⟩ hx
                  · exact absurd ⟨rfl, by rw [hp]; exact hpb⟩ hb
                  · intro c hc
                    exact hall c (hds2 ▸ hc)
                · exact absurd (infinity_head h '0' (c1 :: rest) rfl) (by decide)
            · rw [if_neg ho, signedParseNum_isSome _ (by simp)]
              constructor
              · rintro (h | h)
                · exact Or.inl h
                · exact Or.inr (Or.inr h)
              · rintro (h | h | h)
                · exact Or.inl h
                · obtain ⟨p, ds, hds, hcs, hf⟩ := h
                  injection hcs with hc0 hcs2
                  injection hcs2 with hp hds2
                  rcases hf with ⟨hpx, _⟩ | ⟨hpb, _⟩ | ⟨hpo, _⟩
                  · exact absurd ⟨hc0, by rw [hp]; exact hpx⟩ hx
                  · exact absurd ⟨hc0, by rw [hp]; exact hpb⟩ hb
                  · exact absurd ⟨hc0, by rw [hp]; exact hpo⟩ ho
                · exact Or.inr h
  · intro v hv
    simp only [parseExpression]
    rw [if_neg h1, if_neg h2, if_neg h3, hv]
  · intro hv
    simp only [parseExpression]
    rw [if_neg h1, if_neg h2, if_neg h3, hv]

/-- Witness for C6 at the concrete token `3abc`: a nonempty non-special
token with a numeric prefix, which is not a numeral and parses to the
symbol `3abc`. -/
theorem claim6_atom_classification_witness :
    ("3abc" : String).data ≠ [] ∧ ("3abc" : String) ≠ "(" ∧
    ("3abc" : String) ≠ ")" ∧ ("3abc" : String) ≠ quoteTok ∧
    parseExpression 2 ["3abc"] 0 = .ok ((.sym (toLowerStr "3abc"), []), 0) :=
  ⟨by decide, by decide, by decide, by decide,
   (claim6_atom_classification "3abc" (by decide) (by decide) (by decide) (by decide)
     1 [] 0).2.2 rfl⟩

/-! ## Claim C5: print/parse round trip

First the digit-string arithmetic of the decimal renderer, leading to
the numeric round trip `jsNumParse (numToString q) = some (.num q)` on
the printable domain, then the tokenizer round trip and the parser
round trip. -/

/-- Little-endian value of a digit list. -/
def valLE : List ℕ → ℕ
  | [] => 0
  | d :: ds => d + 10 * valLE ds

lemma digitsVal_append_singleton (xs : List Char) (c : Char) :
    digitsVal (xs ++ [c]) = 10 * digitsVal xs + (c.toNat - 48) := by
  simp [digitsVal, List.foldl_append]

lemma digitChar_toNat {d : ℕ} (h : d < 10) : (digitChar d).toNat - 48 = d := by
  interval_cases d <;> decide

lemma isDigitC_digitChar {d : ℕ} (h : d < 10) : isDigitC (digitChar d) = true := by
  interval_cases d <;> decide

lemma digitChar_ne_zero {d : ℕ} (h : d < 10) (hd : d ≠ 0) : digitChar d ≠ '0' := by
  interval_cases d <;> first | exact absurd rfl hd | decide

lemma digitsVal_rev_map (l : List ℕ) (h : ∀ d ∈ l, d < 10) :
    digitsVal ((l.map digitChar).reverse) = valLE l := by
  induction l with
  | nil => rfl
  | cons d l ih =>
    simp only [List.map_cons, List.reverse_cons]
    rw [digitsVal_append_singleton, ih (fun x hx => h x (List.mem_cons_of_mem _ hx)),
      digitChar_toNat (h d (List.mem_cons_self _ _))]
    simp only [valLE]
    omega

lemma natDigitsAux_zero (f : ℕ) : natDigitsAux f 0 = [] := by
  cases f <;> rfl

lemma natDigitsAux_fuel_zero (n : ℕ) : natDigitsAux 0 n = [] := by
  cases n <;> rfl

lemma natDigitsAux_val : ∀ f n, n ≤ f → valLE (natDigitsAux f n) = n := by
  intro f
  induction f with
  | zero =>
    intro n hn
    interval_cases n
    rfl
  | succ f ih =>
    intro n hn
    cases n with
    | zero => rfl
    | succ m =>
      show valLE ((m + 1) % 10 :: natDigitsAux f ((m + 1) / 10)) = m + 1
      simp only [valLE]
      rw [ih ((m + 1) / 10) (by omega)]
      omega

lemma natDigitsAux_lt10 : ∀ f n, ∀ d ∈ natDigitsAux f n, d < 10 := by
  intro f
  induction f with
  | zero =>
    intro n d hd
    rw [natDigitsAux_fuel_zero] at hd
    exact absurd hd (List.not_mem_nil d)
  | succ f ih =>
    intro n d hd
    cases n with
    | zero =>
      rw [natDigitsAux_zero] at hd
      exact absurd hd (List.not_mem_nil d)
    | succ m =>
      have hd2 : d ∈ (m + 1) % 10 :: natDigitsAux f ((m + 1) / 10) := hd
      rcases List.mem_cons.mp hd2 with h | h
      · subst h
        omega
      · exact ih _ d h

lemma natDigitsAux_ne_nil (f n : ℕ) (h1 : 0 < n) (h2 : n ≤ f) :
    natDigitsAux f n ≠ [] := by
  cases f with
  | zero => omega
  | succ f =>
    cases n with
    | zero => omega
    | succ m => exact List.cons_ne_nil _ _

lemma natDigitsAux_getLast_ne_zero : ∀ f n, 0 < n → n ≤ f →
    ∀ d, (natDigitsAux f n).getLast? = some d → d ≠ 0 := by
  intro f
  induction f with
  | zero => intro n h1 h2; omega
  | succ f ih =>
    intro n h1 h2 d hd
    cases n with
    | zero => omega
    | succ m =>
      have hd2 : ((m + 1) % 10 :: natDigitsAux f ((m + 1) / 10)).getLast? = some d := hd
      by_cases hq : (m + 1) / 10 = 0
      · rw [hq, natDigitsAux_zero] at hd2
        simp only [List.getLast?_singleton, Option.some.injEq] at hd2
        omega
      · have hne := natDigitsAux_ne_nil f ((m + 1) / 10) (Nat.pos_of_ne_zero hq) (by omega)
        rw [getLast?_cons_ne _ _ hne] at hd2
        exact ih ((m + 1) / 10) (Nat.pos_of_ne_zero hq) (by omega) d hd2

lemma natDigitsAux_length : ∀ f n k, n ≤ f → n < 10 ^ k →
    (natDigitsAux f n).length ≤ k := by
  intro f
  induction f with
  | zero =>
    intro n k h1 h2
    interval_cases n
    show ([] : List ℕ).length ≤ k
    simp
  | succ f ih =>
    intro n k h1 h2
    cases n with
    | zero => simp [natDigitsAux_zero]
    | succ m =>
      show ((m + 1) % 10 :: natDigitsAux f ((m + 1) / 10)).length ≤ k
      cases k with
      | zero =>
        rw [pow_zero] at h2
        omega
      | succ k =>
        simp only [List.length_cons]
        have hq : (m + 1) / 10 < 10 ^ k := by
          have h10 : (10 : ℕ) ^ (k + 1) = 10 ^ k * 10 := by ring
          rw [h10] at h2
          omega
        have := ih ((m + 1) / 10) k (by omega) hq
        omega

lemma natToChars_digits (n : ℕ) : ∀ c ∈ natToChars n, isDigitC c = true := by
  intro c hc
  simp only [natToChars, List.mem_reverse, List.mem_map] at hc
  obtain ⟨d, hd, hcd⟩ := hc
  rw [← hcd]
  exact isDigitC_digitChar (natDigitsAux_lt10 n n d hd)

lemma natToChars_ne_nil {n : ℕ} (h0 : n ≠ 0) : natToChars n ≠ [] := by
  simp only [natToChars]
  intro hcon
  rw [List.reverse_eq_nil_iff, List.map_eq_nil_iff] at hcon
  exact natDigitsAux_ne_nil n n (Nat.pos_of_ne_zero h0) le_rfl hcon

lemma digitsVal_natToChars (n : ℕ) : digitsVal (natToChars n) = n := by
  simp only [natToChars]
  rw [digitsVal_rev_map _ (natDigitsAux_lt10 n n)]
  exact natDigitsAux_val n n le_rfl

lemma natStr_data {n : ℕ} (h0 : n ≠ 0) : (natStr n).data = natToChars n := by
  simp only [natStr, if_neg h0]

lemma natStr_zero_data : (natStr 0).data = ['0'] := rfl

lemma natStr_ne_nil (n : ℕ) : (natStr n).data ≠ [] := by
  by_cases h0 : n = 0
  · subst h0; decide
  · rw [natStr_data h0]
    exact natToChars_ne_nil h0

lemma natStr_digits (n : ℕ) : ∀ c ∈ (natStr n).data, isDigitC c = true := by
  by_cases h0 : n = 0
  · subst h0; decide
  · rw [natStr_data h0]
    exact natToChars_digits n

lemma digitsVal_natStr (n : ℕ) : digitsVal (natStr n).data = n := by
  by_cases h0 : n = 0
  · subst h0; decide
  · rw [natStr_data h0]
    exact digitsVal_natToChars n

lemma natStr_head_ne_zero (n : ℕ) (c0 c1 : Char) (r : List Char)
    (h : (natStr n).data = c0 :: c1 :: r) : c0 ≠ '0' := by
  by_cases h0 : n = 0
  · subst h0
    rw [natStr_zero_data] at h
    injection h with _ h2
    exact List.noConfusion h2
  · rw [natStr_data h0] at h
    have hhead : (natToChars n).head? = some c0 := by rw [h]; rfl
    simp only [natToChars, List.head?_reverse] at hhead
    rw [List.getLast?_map] at hhead
    cases hlast : (natDigitsAux n n).getLast? with
    | none => rw [hlast] at hhead; exact Option.noConfusion hhead
    | some d =>
      rw [hlast] at hhead
      have hhead2 : digitChar d = c0 := by simpa using hhead
      have hd10 : d < 10 :=
        natDigitsAux_lt10 n n d (List.mem_of_mem_getLast? hlast)
      have hdz : d ≠ 0 :=
        natDigitsAux_getLast_ne_zero n n (Nat.pos_of_ne_zero h0) le_rfl d hlast
      rw [← hhead2]
      exact digitChar_ne_zero hd10 hdz

lemma digitsVal_cons_zero (xs : List Char) : digitsVal ('0' :: xs) = digitsVal xs := rfl

lemma digitsVal_replicate_zero (j : ℕ) (xs : List Char) :
    digitsVal (List.replicate j '0' ++ xs) = digitsVal xs := by
  induction j with
  | zero => simp
  | succ j ih =>
    rw [List.replicate_succ, List.cons_append, digitsVal_cons_zero, ih]

lemma natStr_length_le {m k : ℕ} (hk : 1 ≤ k) (hm : m < 10 ^ k) :
    (natStr m).data.length ≤ k := by
  by_cases h0 : m = 0
  · subst h0
    rw [natStr_zero_data]
    simpa using hk
  · rw [natStr_data h0]
    simp only [natToChars, List.length_reverse, List.length_map]
    exact natDigitsAux_length m m k le_rfl hm

lemma fracPad_data (k m : ℕ) :
    (fracPad k m).data = List.replicate (k - (natStr m).length) '0' ++ (natStr m).data := rfl

lemma fracPad_digits (k m : ℕ) : ∀ c ∈ (fracPad k m).data, isDigitC c = true := by
  intro c hc
  rw [fracPad_data] at hc
  rcases List.mem_append.mp hc with h | h
  · rw [List.eq_of_mem_replicate h]
    decide
  · exact natStr_digits m c h

lemma fracPad_length {k m : ℕ} (hk : 1 ≤ k) (hm : m < 10 ^ k) :
    (fracPad k m).data.length = k := by
  rw [fracPad_data]
  simp only [List.length_append, List.length_replicate]
  have hle : (natStr m).data.length ≤ k := natStr_length_le hk hm
  have : (natStr m).length = (natStr m).data.length := rfl
  omega

lemma digitsVal_fracPad (k m : ℕ) : digitsVal (fracPad k m).data = m := by
  rw [fracPad_data, digitsVal_replicate_zero, digitsVal_natStr]

/-! Value-level lemmas about the number parser on rendered digit
strings. -/

lemma parseDecCore_digits (cs : List Char) (h : ∀ c ∈ cs, isDigitC c = true)
    (hne : cs ≠ []) : parseDecCore cs = some ((digitsVal cs : ℚ)) := by
  have hsp := @takeWhile_of_all_append isDigitC cs ([] : List Char)
    h (fun c tl htl => nomatch htl)
  rw [List.append_nil] at hsp
  simp only [parseDecCore, List.span_eq_take_drop, hsp.1, hsp.2]
  rw [if_neg hne]
  rfl

lemma parseDecCore_frac (I F : List Char) (hI : ∀ c ∈ I, isDigitC c = true)
    (hF : ∀ c ∈ F, isDigitC c = true) (hIne : I ≠ []) :
    parseDecCore (I ++ '.' :: F) =
      some ((digitsVal I : ℚ) + (digitsVal F : ℚ) / 10 ^ F.length) := by
  have hrest : ∀ c tl, ('.' :: F) = c :: tl → isDigitC c = false := by
    intro c tl htl
    injection htl with h1 _
    rw [← h1]
    decide
  have hsp := @takeWhile_of_all_append isDigitC I ('.' :: F) hI hrest
  have hsp2 := @takeWhile_of_all_append isDigitC F ([] : List Char)
    hF (fun c tl htl => nomatch htl)
  rw [List.append_nil] at hsp2
  simp only [parseDecCore, List.span_eq_take_drop, hsp.1, hsp.2, hsp2.1, hsp2.2, if_true]
  rw [if_neg (by tauto)]
  rfl

lemma ne_infinity_of_digit_head (cs : List Char) (c0 : Char) (r : List Char)
    (hcs : cs = c0 :: r) (hd : isDigitC c0 = true) : cs ≠ "Infinity".data := by
  intro h
  rw [hcs, infinity_data_eq] at h
  injection h with h1 _
  rw [h1] at hd
  exact absurd hd (by decide)

lemma parseUnsignedNum_digits (cs : List Char) (h : ∀ c ∈ cs, isDigitC c = true)
    (hne : cs ≠ []) : parseUnsignedNum cs = some (.num (digitsVal cs : ℚ)) := by
  obtain ⟨c0, r, hcs⟩ := List.exists_cons_of_ne_nil hne
  simp only [parseUnsignedNum]
  rw [if_neg (ne_infinity_of_digit_head cs c0 r hcs (h c0 (hcs ▸ List.mem_cons_self _ _)))]
  rw [parseDecCore_digits cs h hne]
  rfl

lemma parseUnsignedNum_frac (I F : List Char) (hI : ∀ c ∈ I, isDigitC c = true)
    (hF : ∀ c ∈ F, isDigitC c = true) (hIne : I ≠ []) :
    parseUnsignedNum (I ++ '.' :: F) =
      some (.num ((digitsVal I : ℚ) + (digitsVal F : ℚ) / 10 ^ F.length)) := by
  obtain ⟨c0, r, hcs⟩ := List.exists_cons_of_ne_nil hIne
  have hsh : I ++ '.' :: F = c0 :: (r ++ '.' :: F) := by rw [hcs]; rfl
  simp only [parseUnsignedNum]
  rw [if_neg (ne_infinity_of_digit_head _ c0 (r ++ '.' :: F) hsh
    (hI c0 (hcs ▸ List.mem_cons_self _ _)))]
  rw [parseDecCore_frac I F hI hF hIne]
  rfl

lemma signedParseNum_digit_head (cs : List Char) (c0 : Char) (r : List Char)
    (hcs : cs = c0 :: r) (hd : isDigitC c0 = true) :
    signedParseNum cs = parseUnsignedNum cs := by
  subst hcs
  simp only [signedParseNum]
  rw [if_neg (digit_ne_of c0 hd).1, if_neg (digit_ne_of c0 hd).2.1]

lemma signedParseNum_neg (cs : List Char) (v : Value)
    (h : parseUnsignedNum cs = some v) :
    signedParseNum ('-' :: cs) = some (numNegV v) := by
  simp only [signedParseNum]
  rw [if_neg (by decide), if_pos trivial, h]
  rfl

lemma jsNumParse_mk_eq_signed (cs : List Char) (hne : cs ≠ [])
    (hsec : ∀ c0 c1 r, cs = c0 :: c1 :: r → isDigitC c1 = true ∨ c1 = '.') :
    jsNumParse (String.mk cs) = signedParseNum cs := by
  cases cs with
  | nil => exact absurd rfl hne
  | cons c0 r =>
    cases r with
    | nil => exact jsNumParse_one c0
    | cons c1 rest =>
      rw [jsNumParse_two]
      have h1 := hsec c0 c1 rest rfl
      have hx : ¬(c0 = '0' ∧ (c1 = 'x' ∨ c1 = 'X')) := by
        rintro ⟨_, (h | h)⟩ <;> subst h <;> rcases h1 with h1 | h1 <;>
          exact absurd h1 (by decide)
      have hb : ¬(c0 = '0' ∧ (c1 = 'b' ∨ c1 = 'B')) := by
        rintro ⟨_, (h | h)⟩ <;> subst h <;> rcases h1 with h1 | h1 <;>
          exact absurd h1 (by decide)
      have ho : ¬(c0 = '0' ∧ (c1 = 'o' ∨ c1 = 'O')) := by
        rintro ⟨_, (h | h)⟩ <;> subst h <;> rcases h1 with h1 | h1 <;>
          exact absurd h1 (by decide)
      rw [if_neg hx, if_neg hb, if_neg ho]

lemma data_append (a b : String) : (a ++ b).data = a.data ++ b.data :=
  String.data_append a b

lemma mk_data_eta (s : String) : String.mk s.data = s := rfl

/-! The two shapes of `numToString` on the printable domain. -/

lemma numToString_eq_int (q : ℚ) (h : decExp q.den = some 0) :
    numToString q = (if q < 0 then "-" else "") ++ natStr q.num.natAbs := by
  simp only [numToString]
  rw [h]

lemma numToString_eq_frac (q : ℚ) (k : ℕ) (h : decExp q.den = some (k + 1)) :
    numToString q = (if q < 0 then "-" else "") ++
      natStr (q.num.natAbs * 10 ^ (k + 1) / q.den / 10 ^ (k + 1)) ++ "." ++
      fracPad (k + 1) (q.num.natAbs * 10 ^ (k + 1) / q.den % 10 ^ (k + 1)) := by
  simp only [numToString]
  rw [h]
  rfl

lemma natAbs_cast_eq (q : ℚ) (hq : ¬ q < 0) : ((q.num.natAbs : ℕ) : ℚ) = (q.num : ℚ) := by
  have h0 : 0 ≤ q.num := Rat.num_nonneg.mpr (not_lt.mp hq)
  have h1 : ((q.num.natAbs : ℕ) : ℤ) = q.num := Int.natAbs_of_nonneg h0
  calc ((q.num.natAbs : ℕ) : ℚ) = (((q.num.natAbs : ℕ) : ℤ) : ℚ) := (Int.cast_natCast _).symm
    _ = (q.num : ℚ) := by rw [h1]

lemma natAbs_cast_neg (q : ℚ) (hq : q < 0) : ((q.num.natAbs : ℕ) : ℚ) = -(q.num : ℚ) := by
  have h0 : q.num ≤ 0 := le_of_lt (Rat.num_neg.mpr hq)
  have h1 : ((q.num.natAbs : ℕ) : ℤ) = -q.num := Int.ofNat_natAbs_of_nonpos h0
  calc ((q.num.natAbs : ℕ) : ℚ) = (((q.num.natAbs : ℕ) : ℤ) : ℚ) := (Int.cast_natCast _).symm
    _ = ((-q.num : ℤ) : ℚ) := by rw [h1]
    _ = -(q.num : ℚ) := by push_cast; ring

/-- The numeric round trip: on the printable domain, rendering a
rational and converting the text back with the host `Number` recovers
the rational exactly. -/
lemma jsNumParse_numToString (q : ℚ) (k : ℕ) (hk : decExp q.den = some k) :
    jsNumParse (numToString q) = some (.num q) := by
  have hden_pos : 0 < q.den := q.den_pos
  have hsat : (10 ^ k % q.den == 0) = true := by
    have h2 : (List.range 64).find? (fun k2 => 10 ^ k2 % q.den == 0) = some k := hk
    simpa using List.find?_some h2
  have hmod : 10 ^ k % q.den = 0 := by simpa using hsat
  have hdvd : q.den ∣ 10 ^ k := Nat.dvd_of_mod_eq_zero hmod
  cases k with
  | zero =>
    have hden1 : q.den = 1 := Nat.dvd_one.mp (by simpa using hdvd)
    have hqnum : (q.num : ℚ) = q := by
      have h2 := Rat.num_div_den q
      rw [hden1] at h2
      simpa using h2
    rw [numToString_eq_int q hk]
    by_cases hq : q < 0
    · rw [if_pos hq]
      have hdata : (("-" : String) ++ natStr q.num.natAbs).data
          = '-' :: (natStr q.num.natAbs).data := by
        rw [data_append]
        rfl
      have hjs : jsNumParse (("-" : String) ++ natStr q.num.natAbs)
          = jsNumParse (String.mk ('-' :: (natStr q.num.natAbs).data)) := by
        rw [← hdata, mk_data_eta]
      rw [hjs]
      rw [jsNumParse_mk_eq_signed _ (by simp) ?hsec]
      case hsec =>
        intro a b r2 hab
        injection hab with h1 h2
        left
        exact natStr_digits _ b (by rw [h2]; exact List.mem_cons_self _ _)
      rw [signedParseNum_neg _ _
        (parseUnsignedNum_digits _ (natStr_digits _) (natStr_ne_nil _))]
      rw [digitsVal_natStr]
      show some (Value.num (-(q.num.natAbs : ℚ))) = some (.num q)
      rw [natAbs_cast_neg q hq, neg_neg, hqnum]
    · rw [if_neg hq]
      have hdata : (("" : String) ++ natStr q.num.natAbs).data
          = (natStr q.num.natAbs).data := by
        rw [data_append]
        simp
      obtain ⟨c0, r, hcs⟩ := List.exists_cons_of_ne_nil (natStr_ne_nil q.num.natAbs)
      have hjs : jsNumParse (("" : String) ++ natStr q.num.natAbs)
          = jsNumParse (String.mk (natStr q.num.natAbs).data) := by
        rw [← hdata, mk_data_eta]
      rw [hjs]
      rw [jsNumParse_mk_eq_signed _ (natStr_ne_nil _) ?hsec2]
      case hsec2 =>
        intro a b r2 hab
        left
        exact natStr_digits _ b (by rw [hab]; simp)
      rw [signedParseNum_digit_head _ c0 r hcs (natStr_digits _ c0 (by rw [hcs]; simp))]
      rw [parseUnsignedNum_digits _ (natStr_digits _) (natStr_ne_nil _)]
      rw [digitsVal_natStr, natAbs_cast_eq q hq, hqnum]
  | succ j =>
    rw [numToString_eq_frac q j hk]
    set M := q.num.natAbs * 10 ^ (j + 1) / q.den with hM
    have hMden : M * q.den = q.num.natAbs * 10 ^ (j + 1) := by
      rw [hM]
      exact Nat.div_mul_cancel (Dvd.dvd.mul_left hdvd q.num.natAbs)
    have hmodlt : M % 10 ^ (j + 1) < 10 ^ (j + 1) := Nat.mod_lt _ (by positivity)
    set I := (natStr (M / 10 ^ (j + 1))).data with hI
    set F := (fracPad (j + 1) (M % 10 ^ (j + 1))).data with hF
    have hIdig : ∀ c ∈ I, isDigitC c = true := by rw [hI]; exact natStr_digits _
    have hFdig : ∀ c ∈ F, isDigitC c = true := by rw [hF]; exact fracPad_digits _ _
    have hIne : I ≠ [] := by rw [hI]; exact natStr_ne_nil _
    have hFlen : F.length = j + 1 := by rw [hF]; exact fracPad_length (by omega) hmodlt
    have hden0 : ((q.den : ℕ) : ℚ) ≠ 0 := by
      exact_mod_cast Nat.pos_iff_ne_zero.mp hden_pos
    have hpow : ((10 : ℚ)) ^ (j + 1) ≠ 0 := by positivity
    have hval : (digitsVal I : ℚ) + (digitsVal F : ℚ) / 10 ^ F.length
        = (q.num.natAbs : ℚ) / (q.den : ℚ) := by
      rw [hFlen, hI, digitsVal_natStr, hF, digitsVal_fracPad]
      have e1 : ((M / 10 ^ (j + 1) : ℕ) : ℚ) * (10 : ℚ) ^ (j + 1)
          + ((M % 10 ^ (j + 1) : ℕ) : ℚ) = (M : ℚ) := by
        have h2 : (M / 10 ^ (j + 1)) * 10 ^ (j + 1) + M % 10 ^ (j + 1) = M := by
          rw [mul_comm]
          exact Nat.div_add_mod M (10 ^ (j + 1))
        calc ((M / 10 ^ (j + 1) : ℕ) : ℚ) * (10 : ℚ) ^ (j + 1) + ((M % 10 ^ (j + 1) : ℕ) : ℚ)
            = (((M / 10 ^ (j + 1)) * 10 ^ (j + 1) + M % 10 ^ (j + 1) : ℕ) : ℚ) := by
              push_cast
              ring
          _ = (M : ℚ) := by rw [h2]
      have e3 : ((M / 10 ^ (j + 1) : ℕ) : ℚ) + ((M % 10 ^ (j + 1) : ℕ) : ℚ) / (10 : ℚ) ^ (j + 1)
          = (M : ℚ) / (10 : ℚ) ^ (j + 1) := by
        rw [eq_div_iff hpow, add_mul, div_mul_cancel₀ _ hpow]
        exact e1
      rw [e3, div_eq_div_iff hpow hden0]
      exact_mod_cast hMden
    by_cases hq : q < 0
    · rw [if_pos hq]
      have hdata : (("-" : String) ++ natStr (M / 10 ^ (j + 1)) ++ "." ++
          fracPad (j + 1) (M % 10 ^ (j + 1))).data = '-' :: (I ++ '.' :: F) := by
        simp [data_append, ← hI, ← hF]
      have hjs : jsNumParse (("-" : String) ++ natStr (M / 10 ^ (j + 1)) ++ "." ++
          fracPad (j + 1) (M % 10 ^ (j + 1)))
          = jsNumParse (String.mk ('-' :: (I ++ '.' :: F))) := by
        rw [← hdata, mk_data_eta]
      rw [hjs]
      obtain ⟨c0, r, hcs⟩ := List.exists_cons_of_ne_nil hIne
      rw [jsNumParse_mk_eq_signed _ (by simp) ?hsec3]
      case hsec3 =>
        intro a b r2 hab
        injection hab with h1 h2
        rw [hcs] at h2
        have h3 : c0 :: (r ++ '.' :: F) = b :: r2 := by
          rw [← h2]
          rfl
        injection h3 with h4 _
        left
        rw [← h4]
        exact hIdig c0 (by rw [hcs]; exact List.mem_cons_self _ _)
      rw [signedParseNum_neg _ _ (parseUnsignedNum_frac I F hIdig hFdig hIne)]
      show some (Value.num (-((digitsVal I : ℚ) + (digitsVal F : ℚ) / 10 ^ F.length)))
          = some (.num q)
      have hcast : ((q.num.natAbs : ℕ) : ℚ) = -(q.num : ℚ) := natAbs_cast_neg q hq
      rw [hval, hcast, neg_div, neg_neg, Rat.num_div_den]
    · rw [if_neg hq]
      have hdata : (("" : String) ++ natStr (M / 10 ^ (j + 1)) ++ "." ++
          fracPad (j + 1) (M % 10 ^ (j + 1))).data = I ++ '.' :: F := by
        simp [data_append, ← hI, ← hF]
      have hjs : jsNumParse (("" : String) ++ natStr (M / 10 ^ (j + 1)) ++ "." ++
          fracPad (j + 1) (M % 10 ^ (j + 1)))
          = jsNumParse (String.mk (I ++ '.' :: F)) := by
        rw [← hdata, mk_data_eta]
      rw [hjs]
      obtain ⟨c0, r, hcs⟩ := List.exists_cons_of_ne_nil hIne
      have hsh : I ++ '.' :: F = c0 :: (r ++ '.' :: F) := by rw [hcs]; rfl
      rw [jsNumParse_mk_eq_signed _ (by rw [hsh]; simp) ?hsec4]
      case hsec4 =>
        intro a b r2 hab
        rw [hsh] at hab
        injection hab with h1 h2
        cases r with
        | nil =>
          have h3 : ('.' : Char) :: F = b :: r2 := by
            rw [← h2]
            simp
          injection h3 with h4 _
          right
          rw [← h4]
        | cons c1 r3 =>
          have h3 : c1 :: (r3 ++ '.' :: F) = b :: r2 := by
            rw [← h2]
            simp
          injection h3 with h4 _
          left
          rw [← h4]
          exact hIdig c1 (by rw [hcs]; simp)
      rw [signedParseNum_digit_head _ c0 (r ++ '.' :: F) hsh
        (hIdig c0 (by rw [hcs]; exact List.mem_cons_self _ _))]
      rw [parseUnsignedNum_frac I F hIdig hFdig hIne]
      have hcast : ((q.num.natAbs : ℕ) : ℚ) = (q.num : ℚ) := natAbs_cast_eq q hq
      rw [hval, hcast, Rat.num_div_den]

/-! Tokenizer round trip. -/

/-- A character that survives tokenization inside a single token:
neither whitespace nor one of the three padded special characters. -/
def cleanChar (c : Char) : Bool := !(isWsChar c) && !(specialChar c)

lemma cleanChar_iff (c : Char) :
    cleanChar c = true ↔ (isWsChar c = false ∧ specialChar c = false) := by
  simp [cleanChar]

lemma clean_of_digit {c : Char} (h : isDigitC c = true) : cleanChar c = true := by
  have h48 : 48 ≤ c.toNat ∧ c.toNat ≤ 57 := by simpa [isDigitC] using h
  rw [cleanChar_iff]
  constructor
  · simp only [isWsChar, decide_eq_false_iff_not]
    rintro (h2 | h2 | h2 | h2 | h2 | h2)
    · subst h2; exact absurd h48 (by decide)
    · subst h2; exact absurd h48 (by decide)
    · subst h2; exact absurd h48 (by decide)
    · subst h2; exact absurd h48 (by decide)
    · omega
    · omega
  · simp only [specialChar, decide_eq_false_iff_not]
    rintro (h2 | h2 | h2) <;> subst h2 <;> exact absurd h48 (by decide)

lemma numToString_clean (q : ℚ) (k : ℕ) (hk : decExp q.den = some k) :
    ∀ c ∈ (numToString q).data, cleanChar c = true := by
  intro c hc
  cases k with
  | zero =>
    rw [numToString_eq_int q hk, data_append] at hc
    rcases List.mem_append.mp hc with h | h
    · by_cases hq : q < 0
      · rw [if_pos hq] at h
        have hcm : c = '-' := by simpa using h
        subst hcm
        decide
      · rw [if_neg hq] at h
        simp at h
    · exact clean_of_digit (natStr_digits _ c h)
  | succ j =>
    rw [numToString_eq_frac q j hk, data_append, data_append, data_append] at hc
    rcases List.mem_append.mp hc with h | h
    · rcases List.mem_append.mp h with h | h
      · rcases List.mem_append.mp h with h | h
        · by_cases hq : q < 0
          · rw [if_pos hq] at h
            have hcm : c = '-' := by simpa using h
            subst hcm
            decide
          · rw [if_neg hq] at h
            simp at h
        · exact clean_of_digit (natStr_digits _ c h)
      · have hcm : c = '.' := by simpa using h
        subst hcm
        decide
    · exact clean_of_digit (fracPad_digits _ _ c h)

lemma numToString_ne_nil (q : ℚ) (k : ℕ) (hk : decExp q.den = some k) :
    (numToString q).data ≠ [] := by
  cases k with
  | zero =>
    rw [numToString_eq_int q hk, data_append]
    intro h
    rcases List.append_eq_nil.mp h with ⟨_, h2⟩
    exact natStr_ne_nil _ h2
  | succ j =>
    rw [numToString_eq_frac q j hk, data_append]
    intro h
    rcases List.append_eq_nil.mp h with ⟨_, h2⟩
    rw [fracPad_data] at h2
    rcases List.append_eq_nil.mp h2 with ⟨_, h3⟩
    exact natStr_ne_nil _ h3

/-- The class of Values the round trip quantifies over: printable
numbers, symbols that are nonempty clean lowercase non-numeric tokens
(exactly the symbols the parser itself can produce), and nested lists
of these.  NaN, the infinities and rationals outside the finite-decimal
domain are excluded; NaN is the counterexample to the original claim. -/
inductive Roundtrippable : Value → Prop where
  | num (q : ℚ) (h : (decExp q.den).isSome = true) : Roundtrippable (.num q)
  | sym (s : String) (hne : s.data ≠ [])
      (hclean : ∀ c ∈ s.data, cleanChar c = true)
      (hlower : toLowerStr s = s)
      (hnum : jsNumParse s = none) : Roundtrippable (.sym s)
  | list (id : ℕ) (es : List Value) (h : ∀ e ∈ es, Roundtrippable e) :
      Roundtrippable (.list id es)

mutual
/-- The token sequence the printed form of a value splits into. -/
def tokensOf : Value → List String
  | .list _ es => "(" :: (tokensOfItems es ++ [")"])
  | v => [stringify v]
termination_by structural v => v

def tokensOfItems : List Value → List String
  | [] => []
  | e :: es => tokensOf e ++ tokensOfItems es
termination_by structural es => es
end

lemma expandTokens_append (a b : List Char) :
    expandTokens (a ++ b) = expandTokens a ++ expandTokens b := by
  simp [expandTokens]

lemma expandTokens_clean (cs : List Char) (h : ∀ c ∈ cs, cleanChar c = true) :
    expandTokens cs = cs := by
  induction cs with
  | nil => rfl
  | cons c cs ih =>
    have hs : specialChar c = false := ((cleanChar_iff c).mp (h c (List.mem_cons_self _ _))).2
    have ih2 := ih (fun x hx => h x (List.mem_cons_of_mem _ hx))
    show (if specialChar c then [' ', c, ' '] else [c]) ++ expandTokens cs = c :: cs
    rw [hs, if_neg (by simp), ih2]
    rfl

lemma wsSplitAux_notws_append (cs : List Char) (h : ∀ c ∈ cs, isWsChar c = false) :
    ∀ acc r, wsSplitAux acc (cs ++ r) = wsSplitAux (cs.reverse ++ acc) r := by
  induction cs with
  | nil => intro acc r; simp
  | cons c cs ih =>
    intro acc r
    have hw : isWsChar c = false := h c (List.mem_cons_self _ _)
    show (if isWsChar c then
        (if acc.isEmpty then wsSplitAux [] (cs ++ r)
         else String.mk acc.reverse :: wsSplitAux [] (cs ++ r))
      else wsSplitAux (c :: acc) (cs ++ r)) = _
    rw [hw, if_neg (by simp)]
    rw [ih (fun x hx => h x (List.mem_cons_of_mem _ hx)) (c :: acc) r]
    congr 1
    simp

lemma wsSplitAux_ws_skip (c : Char) (r : List Char) (hw : isWsChar c = true) :
    wsSplitAux [] (c :: r) = wsSplitAux [] r := by
  show (if isWsChar c then
      (if ([] : List Char).isEmpty then wsSplitAux [] r
       else String.mk ([] : List Char).reverse :: wsSplitAux [] r)
    else wsSplitAux [c] r) = wsSplitAux [] r
  rw [hw]
  simp

lemma wsSplitAux_token (cs : List Char) (r : List Char) (hne : cs ≠ [])
    (hnw : ∀ c ∈ cs, isWsChar c = false)
    (hr : r = [] ∨ ∃ c r2, r = c :: r2 ∧ isWsChar c = true) :
    wsSplitAux [] (cs ++ r) = String.mk cs :: wsSplitAux [] r := by
  rw [wsSplitAux_notws_append cs hnw [] r, List.append_nil]
  have hrev : cs.reverse.isEmpty = false := by
    cases hcs : cs.reverse with
    | nil => exact absurd (by simpa using hcs) hne
    | cons a l => rfl
  rcases hr with hr | ⟨c, r2, hr, hwc⟩
  · subst hr
    show (if cs.reverse.isEmpty then [] else [String.mk cs.reverse.reverse])
        = String.mk cs :: wsSplitAux [] []
    rw [hrev]
    simp [List.reverse_reverse]
    rfl
  · subst hr
    show (if isWsChar c then
        (if cs.reverse.isEmpty then wsSplitAux [] r2
         else String.mk cs.reverse.reverse :: wsSplitAux [] r2)
      else wsSplitAux (c :: cs.reverse) r2) = String.mk cs :: wsSplitAux [] (c :: r2)
    rw [hwc, hrev, wsSplitAux_ws_skip c r2 hwc]
    simp [List.reverse_reverse]

lemma clean_not_ws {cs : List Char} (h : ∀ c ∈ cs, cleanChar c = true) :
    ∀ c ∈ cs, isWsChar c = false :=
  fun c hc => ((cleanChar_iff c).mp (h c hc)).1

lemma stringify_list_data (id : ℕ) (es : List Value) :
    (stringify (.list id es)).data = '(' :: ((stringifyItems es).data ++ [')']) := by
  show (("(" ++ stringifyItems es ++ ")") : String).data = _
  rw [data_append, data_append]
  simp

/-- Tokenizing the printed form of a round-trippable value, followed by
any already-expanded remainder that is empty or starts with whitespace,
yields exactly the token list of the value followed by the split of the
remainder. -/
lemma tokens_round (v : Value) (h : Roundtrippable v) :
    ∀ r, (r = [] ∨ ∃ c r2, r = c :: r2 ∧ isWsChar c = true) →
      wsSplitAux [] (expandTokens (stringify v).data ++ r)
        = tokensOf v ++ wsSplitAux [] r := by
  induction h with
  | num q hq =>
    intro r hr
    obtain ⟨k, hk⟩ := Option.isSome_iff_exists.mp hq
    have hclean := numToString_clean q k hk
    have hne := numToString_ne_nil q k hk
    show wsSplitAux [] (expandTokens (numToString q).data ++ r)
        = [numToString q] ++ wsSplitAux [] r
    rw [expandTokens_clean _ hclean,
      wsSplitAux_token _ r hne (clean_not_ws hclean) hr, mk_data_eta]
    rfl
  | sym s hne hclean hlow hnum =>
    intro r hr
    show wsSplitAux [] (expandTokens s.data ++ r) = [s] ++ wsSplitAux [] r
    rw [expandTokens_clean _ hclean,
      wsSplitAux_token _ r hne (clean_not_ws hclean) hr, mk_data_eta]
    rfl
  | list id es hmem ih =>
    intro r hr
    have hitems : ∀ es2, (∀ e ∈ es2, Roundtrippable e) →
        (∀ e, e ∈ es2 → ∀ r2, (r2 = [] ∨ ∃ c r3, r2 = c :: r3 ∧ isWsChar c = true) →
          wsSplitAux [] (expandTokens (stringify e).data ++ r2)
            = tokensOf e ++ wsSplitAux [] r2) →
        ∀ r2, (r2 = [] ∨ ∃ c r3, r2 = c :: r3 ∧ isWsChar c = true) →
          wsSplitAux [] (expandTokens (stringifyItems es2).data ++ r2)
            = tokensOfItems es2 ++ wsSplitAux [] r2 := by
      intro es2
      induction es2 with
      | nil =>
        intro _ _ r2 hr2
        rfl
      | cons e es3 ih3 =>
        intro hall hihs r2 hr2
        cases es3 with
        | nil =>
          show wsSplitAux [] (expandTokens (stringify e).data ++ r2)
              = (tokensOf e ++ []) ++ wsSplitAux [] r2
          rw [hihs e (List.mem_cons_self _ _) r2 hr2]
          simp
        | cons e2 es4 =>
          show wsSplitAux []
              (expandTokens ((stringify e ++ " " ++ stringifyItems (e2 :: es4)) : String).data
                ++ r2)
              = (tokensOf e ++ tokensOfItems (e2 :: es4)) ++ wsSplitAux [] r2
          rw [data_append, data_append, expandTokens_append, expandTokens_append]
          have hsp : expandTokens (" " : String).data = [' '] := rfl
          rw [hsp]
          have hassoc : ((expandTokens (stringify e).data ++ [' '])
                ++ expandTokens (stringifyItems (e2 :: es4)).data) ++ r2
              = expandTokens (stringify e).data
                ++ (' ' :: (expandTokens (stringifyItems (e2 :: es4)).data ++ r2)) := by
            simp
          rw [hassoc]
          rw [hihs e (List.mem_cons_self _ _) _ (Or.inr ⟨' ', _, rfl, by decide⟩)]
          rw [wsSplitAux_ws_skip ' ' _ (by decide)]
          rw [ih3 (fun x hx => hall x (List.mem_cons_of_mem _ hx))
            (fun x hx => hihs x (List.mem_cons_of_mem _ hx)) r2 hr2]
          simp
    rw [stringify_list_data id es]
    have hopen : expandTokens ('(' :: ((stringifyItems es).data ++ [')']))
        = [' ', '(', ' ']
          ++ (expandTokens (stringifyItems es).data ++ [' ', ')', ' ']) := by
      show (if specialChar '(' then [' ', '(', ' '] else ['('])
          ++ expandTokens ((stringifyItems es).data ++ [')']) = _
      rw [if_pos (by decide), expandTokens_append]
      rfl
    rw [hopen]
    have hassoc2 : ([' ', '(', ' ']
          ++ (expandTokens (stringifyItems es).data ++ [' ', ')', ' '])) ++ r
        = ' ' :: ('(' :: (' ' :: (expandTokens (stringifyItems es).data
            ++ (' ' :: ')' :: ' ' :: r)))) := by
      simp
    rw [hassoc2, wsSplitAux_ws_skip ' ' _ (by decide)]
    have hparen : wsSplitAux []
        ('(' :: (' ' :: (expandTokens (stringifyItems es).data ++ (' ' :: ')' :: ' ' :: r))))
        = "(" :: wsSplitAux []
            (' ' :: (expandTokens (stringifyItems es).data ++ (' ' :: ')' :: ' ' :: r))) := by
      have := wsSplitAux_token ['('] (' ' :: (expandTokens (stringifyItems es).data
        ++ (' ' :: ')' :: ' ' :: r))) (by simp) (by decide) (Or.inr ⟨' ', _, rfl, by decide⟩)
      simpa using this
    rw [hparen, wsSplitAux_ws_skip ' ' _ (by decide)]
    rw [hitems es hmem ih _ (Or.inr ⟨' ', _, rfl, by decide⟩)]
    rw [wsSplitAux_ws_skip ' ' _ (by decide)]
    have hclose : wsSplitAux [] (')' :: ' ' :: r) = ")" :: wsSplitAux [] (' ' :: r) := by
      have := wsSplitAux_token [')'] (' ' :: r) (by simp) (by decide)
        (Or.inr ⟨' ', _, rfl, by decide⟩)
      simpa using this
    rw [hclose, wsSplitAux_ws_skip ' ' _ (by decide)]
    show "(" :: (tokensOfItems es ++ (")" :: wsSplitAux [] r))
        = ("(" :: (tokensOfItems es ++ [")"])) ++ wsSplitAux [] r
    simp

/-- Tokenizing the printed form of a round-trippable value yields its
token list. -/
lemma tokenize_stringify (v : Value) (h : Roundtrippable v) :
    tokenize (stringify v) = tokensOf v := by
  have h2 := tokens_round v h [] (Or.inl rfl)
  rw [List.append_nil] at h2
  show wsSplitAux [] (expandTokens (stringify v).data) = tokensOf v
  rw [h2]
  show tokensOf v ++ ([] : List String) = tokensOf v
  exact List.append_nil _

/-! Parser round trip. -/

lemma clean_string_not_special (t : String) (hne : t.data ≠ [])
    (hclean : ∀ c ∈ t.data, cleanChar c = true) :
    t ≠ "(" ∧ t ≠ ")" ∧ t ≠ quoteTok := by
  refine ⟨?_, ?_, ?_⟩ <;> intro h <;> subst h
  · exact absurd (hclean '(' (by decide)) (by decide)
  · exact absurd (hclean ')' (by decide)) (by decide)
  · exact absurd (hclean quoteChar (by decide)) (by decide)

lemma tokensOf_shape (v : Value) (h : Roundtrippable v) :
    ∃ t ts, tokensOf v = t :: ts ∧ t ≠ ")" := by
  cases h with
  | num q hq =>
    obtain ⟨k, hk⟩ := Option.isSome_iff_exists.mp hq
    exact ⟨numToString q, [], rfl,
      (clean_string_not_special _ (numToString_ne_nil q k hk)
        (numToString_clean q k hk)).2.1⟩
  | sym s hne hclean hlow hnum =>
    exact ⟨s, [], rfl, (clean_string_not_special s hne hclean).2.1⟩
  | list id es hmem =>
    exact ⟨"(", _, rfl, by decide⟩

/-- Parsing the token list of a round-trippable value, followed by any
remaining tokens, consumes exactly that token list and produces a
structurally equal value (with fresh allocation ids). -/
lemma parse_tokensOf (v : Value) (h : Roundtrippable v) :
    ∀ pf rest ctr, 2 * (tokensOf v).length + 1 ≤ pf →
      ∃ v2 ctr2, parseExpression pf (tokensOf v ++ rest) ctr = .ok ((v2, rest), ctr2) ∧
        specStructEq v v2 = true := by
  induction h with
  | num q hq =>
    intro pf rest ctr hpf
    obtain ⟨k, hk⟩ := Option.isSome_iff_exists.mp hq
    cases pf with
    | zero => omega
    | succ p =>
      have hns := clean_string_not_special _ (numToString_ne_nil q k hk)
        (numToString_clean q k hk)
      refine ⟨.num q, ctr, ?_, by simp [specStructEq]⟩
      show parseExpression (p + 1) (numToString q :: rest) ctr = _
      simp only [parseExpression]
      rw [if_neg hns.1, if_neg hns.2.1, if_neg hns.2.2, jsNumParse_numToString q k hk]
  | sym s hne hclean hlow hnum =>
    intro pf rest ctr hpf
    cases pf with
    | zero => omega
    | succ p =>
      have hns := clean_string_not_special s hne hclean
      refine ⟨.sym s, ctr, ?_, by simp [specStructEq]⟩
      show parseExpression (p + 1) (s :: rest) ctr = _
      simp only [parseExpression]
      rw [if_neg hns.1, if_neg hns.2.1, if_neg hns.2.2, hnum, hlow]
  | list id es hmem ih =>
    intro pf rest ctr hpf
    have hitems : ∀ es2, (∀ e ∈ es2, Roundtrippable e) →
        (∀ e, e ∈ es2 → ∀ pf2 rest2 ctr2, 2 * (tokensOf e).length + 1 ≤ pf2 →
          ∃ v2 ctr3, parseExpression pf2 (tokensOf e ++ rest2) ctr2
              = .ok ((v2, rest2), ctr3) ∧ specStructEq e v2 = true) →
        ∀ pf2 rest2 ctr2, 2 * (tokensOfItems es2).length + 2 ≤ pf2 →
          ∃ vs ctr3, parseListItems pf2 (tokensOfItems es2 ++ ")" :: rest2) ctr2
              = .ok ((vs, rest2), ctr3) ∧ specStructEqList es2 vs = true := by
      intro es2
      induction es2 with
      | nil =>
        intro _ _ pf2 rest2 ctr2 hpf2
        cases pf2 with
        | zero => omega
        | succ p2 =>
          refine ⟨[], ctr2, ?_, rfl⟩
          show parseListItems (p2 + 1) (")" :: rest2) ctr2 = _
          simp only [parseListItems]
          rw [if_pos trivial]
      | cons e es3 ih3 =>
        intro hall hihs pf2 rest2 ctr2 hpf2
        cases pf2 with
        | zero =>
          exfalso
          omega
        | succ p2 =>
          obtain ⟨t, ts, hts, htne⟩ := tokensOf_shape e (hall e (List.mem_cons_self _ _))
          have hlen1 : 1 ≤ (tokensOf e).length := by rw [hts]; simp
          have hlen : (tokensOfItems (e :: es3)).length
              = (tokensOf e).length + (tokensOfItems es3).length := by
            show (tokensOf e ++ tokensOfItems es3).length = _
            simp
          rw [hlen] at hpf2
          obtain ⟨ve, ctrE, hpe, hse⟩ := hihs e (List.mem_cons_self _ _) p2
            (tokensOfItems es3 ++ ")" :: rest2) ctr2 (by omega)
          obtain ⟨vs, ctr3, hpl, hsl⟩ := ih3
            (fun x hx => hall x (List.mem_cons_of_mem _ hx))
            (fun x hx => hihs x (List.mem_cons_of_mem _ hx)) p2 rest2 ctrE (by omega)
          refine ⟨ve :: vs, ctr3, ?_, ?_⟩
          · have hflat : tokensOfItems (e :: es3) ++ ")" :: rest2
                = t :: (ts ++ (tokensOfItems es3 ++ ")" :: rest2)) := by
              show (tokensOf e ++ tokensOfItems es3) ++ ")" :: rest2 = _
              rw [hts]
              simp
            rw [hflat]
            simp only [parseListItems]
            rw [if_neg htne]
            have hpe2 : parseExpression p2
                (t :: (ts ++ (tokensOfItems es3 ++ ")" :: rest2))) ctr2
                = .ok ((ve, tokensOfItems es3 ++ ")" :: rest2), ctrE) := by
              have hsh : tokensOf e ++ (tokensOfItems es3 ++ ")" :: rest2)
                  = t :: (ts ++ (tokensOfItems es3 ++ ")" :: rest2)) := by
                rw [hts]
                rfl
              rw [← hsh]
              exact hpe
            rw [hpe2]
            dsimp only
            rw [hpl]
          · show (specStructEq e ve && specStructEqList es3 vs) = true
            rw [hse, hsl]
            rfl
    cases pf with
    | zero => omega
    | succ p =>
      have hlenL : (tokensOf (Value.list id es)).length = (tokensOfItems es).length + 2 := by
        show ("(" :: (tokensOfItems es ++ [")"])).length = _
        simp
      obtain ⟨vs, ctr3, hpl, hsl⟩ := hitems es hmem ih p rest ctr
        (by rw [hlenL] at hpf; omega)
      refine ⟨.list ctr3 vs, ctr3 + 1, ?_, ?_⟩
      · show parseExpression (p + 1) ("(" :: ((tokensOfItems es ++ [")"]) ++ rest)) ctr = _
        simp only [parseExpression]
        rw [if_pos True.intro]
        have hre : (tokensOfItems es ++ [")"]) ++ rest = tokensOfItems es ++ ")" :: rest := by
          simp
        rw [hre, hpl]
      · show specStructEqList es vs = true
        exact hsl

/-- **C5 counterexample.**  NaN is a number value the evaluator
produces (here from `(/ 0 0)`), `stringify` prints it as `NaN`, but
re-tokenizing and re-parsing that text yields the symbol `nan` (the
token is not numeric, so the parser lowercases it), which is not
structurally equal to the original value: the round trip fails for a
producible number. -/
theorem claim5_counterexample :
    evaluate 20 "(/ 0 0)" = .ok ("NaN", "NaN") ∧
    tokenize (stringify Value.nan) = ["NaN"] ∧
    parseExpression 2 ["NaN"] 0 = .ok ((.sym "nan", []), 0) ∧
    specStructEq Value.nan (.sym "nan") = false := by
  refine ⟨rfl, rfl, rfl, rfl⟩

/-- **C5** (amended): for every value built from printable numbers
(finite decimal expansion), parser-producible symbols and nested lists
of these, running the printed form through the interpreter front end --
`tokenize` then `parse` with the fuel `evaluate` supplies -- yields
exactly one expression, structurally equal to the original value.  NaN,
the infinities and non-finite-decimal rationals are excluded: NaN is a
counterexample, and `T`/`NIL` collapse by design. -/
theorem claim5_round_trip (v : Value) (h : Roundtrippable v) :
    ∃ v2 ctr, parse (parseFuel (tokenize (stringify v))) (tokenize (stringify v)) 0
        = .ok ([v2], ctr) ∧ specStructEq v v2 = true := by
  rw [tokenize_stringify v h]
  obtain ⟨t, ts, hts, -⟩ := tokensOf_shape v h
  obtain ⟨v2, ctr2, hpe, hse⟩ := parse_tokensOf v h (2 * (tokensOf v).length + 3) [] 0
    (by omega)
  rw [List.append_nil] at hpe
  refine ⟨v2, ctr2, ?_, hse⟩
  show parse ((2 * (tokensOf v).length + 3) + 1) (tokensOf v) 0 = _
  rw [hts] at hpe ⊢
  simp only [parse]
  rw [hpe]
  dsimp only
  have hx : parse (2 * (t :: ts).length + 3) [] ctr2 = .ok ([], ctr2) := rfl
  rw [hx]

/-- Witness for C5 at the concrete value `(5 foo)`. -/
theorem claim5_round_trip_witness :
    ∃ v2 ctr, parse
        (parseFuel (tokenize (stringify (Value.list 0 [Value.num (5 : ℚ), Value.sym "foo"]))))
        (tokenize (stringify (Value.list 0 [Value.num (5 : ℚ), Value.sym "foo"]))) 0
        = .ok ([v2], ctr) ∧
      specStructEq (Value.list 0 [Value.num (5 : ℚ), Value.sym "foo"]) v2 = true :=
  claim5_round_trip _ (Roundtrippable.list 0 _ (by
    intro e he
    rcases List.mem_cons.mp he with h | h
    · subst h
      exact Roundtrippable.num _ (by decide)
    · rcases List.mem_cons.mp h with h2 | h2
      · subst h2
        exact Roundtrippable.sym "foo" (by decide) (by decide) (by decide) rfl
      · exact absurd h2 (List.not_mem_nil e)))

end SimpleLisp
